import Mathlib

/-!
Verification of the SquareQuber packing solver (src/src/app.js).

The board is an `n × n` occupancy grid; `cells[y][x] = 0` means empty and a
non-zero value identifies the occupying tile.  Grids are embedded as functions
`y ↦ x ↦ value` over `Int` (the solution counter writes negative placeholder
ids).  The asynchronous plumbing of the source (progress callbacks, `sleep`,
node/depth statistics) has no influence on the returned values or on the
caller's state and is not part of the embedding; the cooperative cancellation
flag is modelled by a function `cancel : Nat → Bool` giving the value observed
by each successive read of the flag, and the per-depth shuffled size orders by
a function `orders : Nat → List Nat`.
-/

namespace SquareQuber

/-- Occupancy grid: `g y x` is the cell value at column `x` of row `y`. -/
abbrev Grid := Nat → Nat → Int

/-- Write value `v` into the `s × s` block with top-left `(x, y)`
(the double loop bodies of `doPlace` / `unPlace` / `Board.place`). -/
def placeBlock (g : Grid) (x y s : Nat) (v : Int) : Grid :=
  fun yy xx => if x ≤ xx ∧ xx < x + s ∧ y ≤ yy ∧ yy < y + s then v else g yy xx

/-- Scan one row left to right starting at column `x`, with `k` columns left. -/
def scanRowFrom (g : Grid) (y : Nat) : Nat → Nat → Option Nat
  | _, 0 => none
  | x, k+1 => if g y x == 0 then some x else scanRowFrom g y (x+1) k

/-- Scan rows downward starting at `y`, with `k` rows left. -/
def scanFrom (n : Nat) (g : Grid) : Nat → Nat → Option (Nat × Nat)
  | _, 0 => none
  | y, k+1 =>
    match scanRowFrom g y 0 n with
    | some x => some (x, y)
    | none => scanFrom n g (y+1) k

/-- `findNextEmpty(startingRow)` of `solveRemainingAsync` / `countSolutionsAsync`:
first empty cell in row-major order, scanning rows from `startingRow` downward. -/
def findNextEmpty (n : Nat) (g : Grid) (startingRow : Nat) : Option (Nat × Nat) :=
  scanFrom n g startingRow (n - startingRow)

/-- `canPlaceAt(x, y, s)` of the solver: the `s × s` block at `(x, y)` is inside
the board and all of its cells are empty. -/
def canPlaceAt (n : Nat) (g : Grid) (x y s : Nat) : Bool :=
  x + s ≤ n && y + s ≤ n &&
    (List.range s).all fun j => (List.range s).all fun i => g (y + j) (x + i) == 0

/-- Number of non-empty cells of the `n × n` grid. -/
def countFilled (n : Nat) (g : Grid) : Nat :=
  ((List.range n).map (fun y => ((List.range n).filter (fun x => !(g y x == 0))).length)).sum

/-- Number of empty cells of the `n × n` grid. -/
def countEmpty (n : Nat) (g : Grid) : Nat :=
  ((List.range n).map (fun y => ((List.range n).filter (fun x => g y x == 0)).length)).sum

/-- `Piece`: one square tile.  The source also stores rendering fields
`w = h = size`, which nothing in the solver reads. -/
structure Piece where
  id : Nat
  size : Nat
  x : Nat
  y : Nat
  placed : Bool
  fixed : Bool
deriving Repr, DecidableEq

/-- `Board`: size, occupancy grid and filled-cell count. -/
structure Board where
  size : Nat
  cells : Grid
  filled : Nat

/-- `Board.inBounds` (the `x ≥ 0 && y ≥ 0` parts hold by the `Nat` coordinates). -/
def Board.inBounds (b : Board) (x y s : Nat) : Bool :=
  x + s ≤ b.size && y + s ≤ b.size

/-- `Board.overlap`: some cell of the `s × s` block at `(x, y)` is non-zero. -/
def Board.overlap (b : Board) (x y s : Nat) : Bool :=
  (List.range s).any fun j => (List.range s).any fun i => !(b.cells (y + j) (x + i) == 0)

/-- `Board.place`: write the piece id into the block and add `s²` to `filled`. -/
def Board.place (b : Board) (p : Piece) (x y : Nat) : Board :=
  { b with cells := placeBlock b.cells x y p.size (p.id : Int),
           filled := b.filled + p.size * p.size }

/-- `canPlace(board, piece, x, y)`. -/
def canPlace (b : Board) (p : Piece) (x y : Nat) : Bool :=
  b.inBounds x y p.size && !(b.overlap x y p.size)

/-- `k` pieces of one size with consecutive ids starting at `id`. -/
def repeatPieces (id size : Nat) : Nat → List Piece
  | 0 => []
  | k+1 => Piece.mk id size 0 0 false false :: repeatPieces (id+1) size k

/-- The outer loop of `createInventory`: `rem` sizes left, current `size`, next `id`. -/
def createInventoryAux : Nat → Nat → Nat → List Piece
  | 0, _, _ => []
  | rem+1, size, id => repeatPieces id size size ++ createInventoryAux rem (size+1) (id + size)

/-- `createInventory()`: for each size 1..8, `size` pieces of that size, ids 1.. . -/
def createInventory : List Piece := createInventoryAux 8 1 1

/-- A single undo step record. -/
structure Step where
  pieceId : Nat
  fromX : Nat
  fromY : Nat
  fromPlaced : Bool
  toX : Nat
  toY : Nat
  toPlaced : Bool
deriving Repr, DecidableEq

/-- The part of `GameState` the solver touches: board, inventory and the
undo/redo logs (undo entries made by the solver are batches of steps). -/
structure GState where
  board : Board
  inventory : List Piece
  undo : List (List Step)
  redo : List (List Step)

/-- `GameState.pushStep` for a batch: push onto undo, clear redo. -/
def GState.pushStep (state : GState) (steps : List Step) : GState :=
  { state with undo := state.undo ++ [steps], redo := [] }

/-! ### Exact-completion solver (`solveRemainingAsync`) -/

/-- A solver placement record `{pieceId, x, y, size}`. -/
structure Placement where
  pieceId : Nat
  x : Nat
  y : Nat
  size : Nat
deriving Repr, DecidableEq

/-- The solver's private working state: the copied grid, the per-size pools of
available piece ids (`pool.pop()` takes from the end), the placement stack, and
the index `t` of the next read of the cancellation flag. -/
structure SState where
  cells : Grid
  pools : Nat → List Nat
  placements : List Placement
  t : Nat

/-- Advance the cancellation-read index. -/
def bumpT (st : SState) : SState := { st with t := st.t + 1 }

/-- Functional update of the pool map at one size. -/
def updPools (f : Nat → List Nat) (s : Nat) (v : List Nat) : Nat → List Nat :=
  fun s2 => if s2 = s then v else f s2

/-- The `for (const s of order)` loop body of `backtrack`: try each candidate
size in order; `recur y st` is the recursive call `backtrack(depth+1, y)`. -/
def trySizes (n : Nat) (cancel : Nat → Bool) (recur : Nat → SState → Bool × SState)
    (x y : Nat) : List Nat → SState → Bool × SState
  | [], st => (false, st)
  | s :: rest, st =>
    if cancel st.t then (false, bumpT st)
    else
      let st1 := bumpT st
      if (st1.pools s).isEmpty then trySizes n cancel recur x y rest st1
      else if !canPlaceAt n st1.cells x y s then trySizes n cancel recur x y rest st1
      else
        let pool := st1.pools s
        let pid := pool.getLastD 0
        let st2 : SState :=
          { st1 with
            cells := placeBlock st1.cells x y s (pid : Int),
            pools := updPools st1.pools s pool.dropLast,
            placements := st1.placements ++ [⟨pid, x, y, s⟩] }
        let r1 := recur y st2
        if r1.1 then (true, r1.2)
        else
          let st3 : SState :=
            { r1.2 with
              cells := placeBlock r1.2.cells x y s 0,
              pools := updPools r1.2.pools s (r1.2.pools s ++ [pid]),
              placements := r1.2.placements.dropLast }
          if cancel st3.t then (false, bumpT st3)
          else trySizes n cancel recur x y rest (bumpT st3)

/-- `backtrack(depth, startingRow)`.  `fuel` bounds the recursion depth;
`solveRemainingAsync` passes one more than the total number of available
pieces, which is never exhausted since every level pops one piece. -/
def backtrack (n : Nat) (orders : Nat → List Nat) (cancel : Nat → Bool) :
    Nat → Nat → Nat → SState → Bool × SState
  | 0, _, _, st => (false, st)
  | fuel+1, depth, startingRow, st =>
    if cancel st.t then (false, bumpT st)
    else
      let st1 := bumpT st
      match findNextEmpty n st1.cells startingRow with
      | none => (true, st1)
      | some (x, y) =>
        trySizes n cancel (fun yy stt => backtrack n orders cancel fuel (depth+1) yy stt)
          x y (orders depth) st1

/-- The per-size pool built from the unplaced inventory pieces
(`available` has keys 1..8 only). -/
def poolOf (state : GState) (s : Nat) : List Nat :=
  if 1 ≤ s ∧ s ≤ 8 then (state.inventory.filter (fun p => !p.placed && p.size == s)).map Piece.id
  else []

/-- `baseSizes`: the sizes 1..8 whose pool is non-empty, in key order. -/
def baseSizesOf (state : GState) : List Nat :=
  ((List.range 8).map (· + 1)).filter (fun s => !(poolOf state s).isEmpty)

/-- `maxPlacements`: total number of available pieces. -/
def poolTotalOf (state : GState) : Nat :=
  ((List.range 8).map (fun i => (poolOf state (i+1)).length)).sum

/-- Replace the first piece with the given id (mutating the object returned by
`inventory.find` in the source). -/
def setFirstPiece : List Piece → Nat → Piece → List Piece
  | [], _, _ => []
  | p :: rest, pid, q => if p.id = pid then q :: rest else p :: setFirstPiece rest pid q

/-- The success epilogue of `solveRemainingAsync`: apply each recorded
placement to the caller's board/inventory, collecting the undo steps. -/
def applyPlacements (state : GState) : List Placement → GState × List Step
  | [] => (state, [])
  | pl :: rest =>
    match state.inventory.find? (fun p => p.id == pl.pieceId) with
    | none => applyPlacements state rest
    | some piece =>
      if piece.placed then applyPlacements state rest
      else
        let piece2 := { piece with x := pl.x, y := pl.y, placed := true }
        let state2 : GState :=
          { state with
            inventory := setFirstPiece state.inventory pl.pieceId piece2,
            board := state.board.place piece2 pl.x pl.y }
        let r := applyPlacements state2 rest
        (r.1, ⟨pl.pieceId, 0, 0, false, pl.x, pl.y, true⟩ :: r.2)

/-- The result value of `solveRemainingAsync`: `{ok: false, reason: 'cancel'}`,
`{ok: false}` (reason absent) or `{ok: true, count}`. -/
structure SolveResult where
  ok : Bool
  reason : Option String
  count : Option Nat
deriving Repr, DecidableEq

/-- `solveRemainingAsync(state, ...)`: search a private copy of the grid; on
success apply the placements back to the caller's state and push one undo
batch.  `orders d` is the shuffled size order used at recursion depth `d`
(`sizeOrders[depth] || baseSizes`); `cancel t` is the cancellation flag value
observed by the `t`-th read. -/
def solveRemainingAsync (state : GState) (orders : Nat → List Nat) (cancel : Nat → Bool) :
    SolveResult × GState :=
  let n := state.board.size
  let st0 : SState := { cells := state.board.cells, pools := poolOf state, placements := [], t := 0 }
  let r := backtrack n orders cancel (poolTotalOf state + 1) 0 0 st0
  if cancel r.2.t then ({ ok := false, reason := some "cancel", count := none }, state)
  else if !r.1 then ({ ok := false, reason := none, count := none }, state)
  else
    let ap := applyPlacements state r.2.placements
    let state2 := if ap.2.isEmpty then ap.1 else ap.1.pushStep ap.2
    ({ ok := true, reason := none, count := some ap.2.length }, state2)

/-! ### Solution counter (`countSolutionsAsync`) -/

/-- The counter tries sizes largest first. -/
def countOrder : List Nat := [8, 7, 6, 5, 4, 3, 2, 1]

/-- Decrement a per-size count (`counts[s]--`). -/
def decrAt (f : Nat → Nat) (s : Nat) : Nat → Nat :=
  fun s2 => if s2 = s then f s2 - 1 else f s2

/-- The `for (let s = 8; s >= 1; s--)` loop of the counter's `backtrack`;
`recur` is the recursive call, threading the solution count `sol`. -/
def ctrySizes (n : Nat) (recur : Grid → (Nat → Nat) → Nat → Nat → Bool × Nat)
    (cells : Grid) (counts : Nat → Nat) (x y : Nat) : List Nat → Nat → Bool × Nat
  | [], sol => (false, sol)
  | s :: rest, sol =>
    if counts s = 0 then ctrySizes n recur cells counts x y rest sol
    else if !canPlaceAt n cells x y s then ctrySizes n recur cells counts x y rest sol
    else
      let r := recur (placeBlock cells x y s (-(s : Int))) (decrAt counts s) y sol
      if r.1 then (true, r.2)
      else ctrySizes n recur cells counts x y rest r.2

/-- The counter's `backtrack(startingRow)`: stop once `limit` solutions are
reached.  `fuel` bounds the recursion depth as in the exact solver. -/
def cbacktrack (n limit : Nat) : Nat → Grid → (Nat → Nat) → Nat → Nat → Bool × Nat
  | 0, _, _, _, sol => (false, sol)
  | fuel+1, cells, counts, startingRow, sol =>
    if limit ≤ sol then (true, sol)
    else
      match findNextEmpty n cells startingRow with
      | none => (decide (limit ≤ sol + 1), sol + 1)
      | some (x, y) =>
        ctrySizes n (fun c2 k2 y2 s2 => cbacktrack n limit fuel c2 k2 y2 s2)
          cells counts x y countOrder sol

/-- Remaining pieces per size (`counts[p.size]++` over unplaced pieces). -/
def countsOf (state : GState) : Nat → Nat :=
  fun s => (state.inventory.filter (fun p => !p.placed && p.size == s)).length

/-- Total of the per-size counts over the sizes 1..8 the counter reads. -/
def countsTotal (counts : Nat → Nat) : Nat :=
  ((List.range 8).map (fun i => counts (i+1))).sum

/-- The value part of `countSolutionsAsync`'s result (`nodes` is reported for
progress display only and is dropped here). -/
structure CountResult where
  count : Nat
deriving Repr, DecidableEq

/-- `countSolutionsAsync(state, limit)` as a pure count. -/
def countSolutionsAsync (state : GState) (limit : Nat) : CountResult :=
  let r := cbacktrack state.board.size limit (countsTotal (countsOf state) + 1)
    state.board.cells (countsOf state) 0 0
  { count := r.2 }

/-! ### Spec-side notion of an exact completion -/

/-- One candidate placement `(x, y, size)`. -/
abbrev P3 := Nat × Nat × Nat

/-- Row-major key of a placement's top-left corner. -/
def rasterKey (n : Nat) (q : P3) : Nat := q.2.1 * n + q.1

/-- Cell `(xx, yy)` lies in the block of placement `q`. -/
def inBlock (q : P3) (xx yy : Nat) : Prop :=
  q.1 ≤ xx ∧ xx < q.1 + q.2.2 ∧ q.2.1 ≤ yy ∧ yy < q.2.1 + q.2.2

instance (q : P3) (xx yy : Nat) : Decidable (inBlock q xx yy) := by
  unfold inBlock; infer_instance

/-- Modelled from the spec: `P` is an exact completion of the `n × n` grid `g`
with at most `counts s` tiles of each size `s` — the placements are listed in
strictly increasing raster order of their top-left corners (the canonical
representative of the set of placements), lie inside the board with sizes
1..8, are pairwise disjoint, and cover exactly the empty cells of `g`. -/
def IsCompletion (n : Nat) (g : Grid) (counts : Nat → Nat) (P : List P3) : Prop :=
  List.Pairwise (fun a b => rasterKey n a < rasterKey n b) P ∧
  (∀ q ∈ P, 1 ≤ q.2.2 ∧ q.2.2 ≤ 8 ∧ q.1 + q.2.2 ≤ n ∧ q.2.1 + q.2.2 ≤ n) ∧
  List.Pairwise (fun a b => ∀ xx yy, ¬(inBlock a xx yy ∧ inBlock b xx yy)) P ∧
  (∀ xx, xx < n → ∀ yy, yy < n → (g yy xx = 0 ↔ ∃ q ∈ P, inBlock q xx yy)) ∧
  (∀ s, (P.filter (fun q => q.2.2 == s)).length ≤ counts s)

/-- Helper for `completionsFrom`: the per-size branches at one empty cell. -/
def enumSizes (n : Nat) (recur : Grid → (Nat → Nat) → Nat → List (List P3))
    (cells : Grid) (counts : Nat → Nat) (x y : Nat) : List Nat → List (List P3)
  | [] => []
  | s :: rest =>
    (if counts s ≠ 0 ∧ canPlaceAt n cells x y s then
      (recur (placeBlock cells x y s (-(s : Int))) (decrAt counts s) y).map
        (fun P => (x, y, s) :: P)
    else []) ++ enumSizes n recur cells counts x y rest

/-- Modelled from the spec: the full enumeration of exact completions from a
position — the counter's recursion with the solution limit removed, returning
the completions themselves instead of counting them. -/
def completionsFrom (n : Nat) : Nat → Grid → (Nat → Nat) → Nat → List (List P3)
  | 0, _, _, _ => []
  | fuel+1, cells, counts, startingRow =>
    match findNextEmpty n cells startingRow with
    | none => [[]]
    | some (x, y) =>
      enumSizes n (fun c2 k2 y2 => completionsFrom n fuel c2 k2 y2) cells counts x y countOrder

/-! ### Reachable search configurations (for the starting-row invariant) -/

/-- Grid/starting-row configurations reachable by the recursive search: the
root scans from row 0; each recursive call places a non-zero id into an `s × s`
block at the first empty cell found from the current starting row, and resumes
the scan from that cell's row. -/
inductive Reach (n : Nat) (g0 : Grid) : Grid → Nat → Prop where
  | base : Reach n g0 g0 0
  | step : ∀ (g : Grid) (r x y s : Nat) (id : Int), Reach n g0 g r →
      findNextEmpty n g r = some (x, y) →
      1 ≤ s → s ≤ 8 → canPlaceAt n g x y s = true → id ≠ 0 →
      Reach n g0 (placeBlock g x y s id) y

/-! ### Symmetry transforms -/

/-- One quarter turn clockwise of the `(x, y)` loop body of `makeTransform.map`. -/
def rotCWStep (n : Nat) (p : Int × Int) : Int × Int := ((n : Int) - 1 - p.2, p.1)

/-- One quarter turn counter-clockwise of `makeTransform.inv`. -/
def rotCCWStep (n : Nat) (p : Int × Int) : Int × Int := (p.2, (n : Int) - 1 - p.1)

/-- Apply `f` `k` times (the `for (let i = 0; i < rotN; i++)` loops). -/
def iterRot (f : (Int × Int) → (Int × Int)) : Nat → (Int × Int) → (Int × Int)
  | 0, p => p
  | k+1, p => iterRot f k (f p)

/-- `makeTransform(...).map`: mirror across the vertical axis, then rotate
clockwise `rot mod 4` times. -/
def tfMap (n : Nat) (rot : Nat) (mirror : Bool) (p : Int × Int) : Int × Int :=
  let rotN := (rot % 4 + 4) % 4
  let p1 := if mirror then ((n : Int) - 1 - p.1, p.2) else p
  iterRot (rotCWStep n) rotN p1

/-- `makeTransform(...).inv`: rotate counter-clockwise `rot mod 4` times, then
mirror. -/
def tfInv (n : Nat) (rot : Nat) (mirror : Bool) (p : Int × Int) : Int × Int :=
  let rotN := (rot % 4 + 4) % 4
  let p1 := iterRot (rotCCWStep n) rotN p
  if mirror then ((n : Int) - 1 - p1.1, p1.2) else p1

/-- The canonicalization key of one transform: sum of `x' + y'*n` over the
filled cells of the grid. -/
def transformKey (n : Nat) (g : Grid) (rot : Nat) (mirror : Bool) : Int :=
  ((List.range n).map (fun y =>
    ((List.range n).map (fun x =>
      if g y x == 0 then 0
      else (tfMap n rot mirror ((x : Int), (y : Int))).1 +
           (tfMap n rot mirror ((x : Int), (y : Int))).2 * (n : Int))).sum)).sum

/-- The 8 square symmetries in the enumeration order of `chooseBestTransform`:
rotation 0..3 outer, mirror `false` before `true`. -/
def symmetryList : List (Nat × Bool) :=
  [(0, false), (0, true), (1, false), (1, true), (2, false), (2, true), (3, false), (3, true)]

/-- One step of `chooseBestTransform`'s scan (`if (sum < bestSum)`; the initial
`bestSum = Infinity` means the first candidate is always taken). -/
def chooseStep (n : Nat) (g : Grid) (acc : Option ((Nat × Bool) × Int)) (tf : Nat × Bool) :
    Option ((Nat × Bool) × Int) :=
  let s := transformKey n g tf.1 tf.2
  match acc with
  | none => some (tf, s)
  | some best => if s < best.2 then some (tf, s) else some best

/-- `chooseBestTransform(board)`: the transform (rotation, mirror) minimizing
the key, first in enumeration order on ties, together with its key (`best.sum`).
The `getD` default is unreachable (`symmetryList` is non-empty). -/
def chooseBestTransform (b : Board) : (Nat × Bool) × Int :=
  (symmetryList.foldl (chooseStep b.size b.cells) none).getD ((0, false), 0)

/-! ### Puzzle string encoding -/

/-- The base-36 digit alphabet. -/
def BASE36 : List Char := "0123456789abcdefghijklmnopqrstuvwxyz".toList

/-- `b36ToIntChar`: index of the lower-cased character in the alphabet, `-1` if
absent.  (`String.toLowerCase` is modelled for the ASCII range by
`Char.toLower`.) -/
def b36ToIntChar (c : Char) : Int :=
  let i := List.indexOf c.toLower BASE36
  if i < BASE36.length then (i : Int) else -1

/-- `isSizeChar`: a digit between '1' and '8'. -/
def isSizeChar (c : Char) : Bool := '1' ≤ c && c ≤ '8'

/-- ASCII whitespace trimmed by `String.prototype.trim`. -/
def isJsSpace (c : Char) : Bool :=
  c == ' ' || c == '\t' || c == '\n' || c == '\r' || c == Char.ofNat 11 || c == Char.ofNat 12

/-- `s.trim()` over the ASCII range: drop whitespace from both ends. -/
def jsTrim (cs : List Char) : List Char :=
  ((cs.dropWhile isJsSpace).reverse.dropWhile isJsSpace).reverse

/-- A decoded `{size, x, y}` record. -/
structure PuzzleItem where
  size : Nat
  x : Nat
  y : Nat
deriving Repr, DecidableEq

/-- The single-quote character of the source's error message. -/
def sq : String := String.singleton (Char.ofNat 39)

/-- Error message for a bad size character at string index `i`. -/
def badSizeMsg (c : Char) (i : Nat) : String :=
  "bad size " ++ sq ++ String.singleton c ++ sq ++ " at " ++ toString i

/-- Error message for a bad coordinate in the group starting at index `i - 1`. -/
def badCoordMsg (i : Nat) : String := "bad coord at " ++ toString i

/-- Error message for a length that is not a multiple of 3. -/
def lengthMsg : String := "length must be multiple of 3"

/-- The decoding loop of `parsePuzzleString` over 3-character groups; `i` is
the index of the group's first character.  The 1- or 2-character leftover case
is unreachable (the caller has checked the length). -/
def parseGroups : Nat → List Char → Except String (List PuzzleItem)
  | _, [] => Except.ok []
  | _, _ :: [] => Except.ok []
  | _, _ :: _ :: [] => Except.ok []
  | i, szc :: xc :: yc :: rest =>
    if !isSizeChar szc then Except.error (badSizeMsg szc i)
    else
      let x := b36ToIntChar xc
      let y := b36ToIntChar yc
      if x < 0 ∨ y < 0 then Except.error (badCoordMsg (i+1))
      else
        match parseGroups (i+3) rest with
        | Except.ok out => Except.ok (⟨szc.toNat - '0'.toNat, x.toNat, y.toNat⟩ :: out)
        | Except.error e => Except.error e

/-- `parsePuzzleString(s)`: empty input decodes to `[]`; otherwise trim, check
the length is a multiple of 3, and decode each group. -/
def parsePuzzleString (s : List Char) : Except String (List PuzzleItem) :=
  if s.isEmpty then Except.ok []
  else
    let str := jsTrim s
    if str.length % 3 ≠ 0 then Except.error lengthMsg
    else parseGroups 0 str

/-- `toPuzzleString(items)`: encode each item as size digit plus two base-36
coordinate digits, skipping items whose coordinates fall outside the alphabet. -/
def toPuzzleString : List PuzzleItem → List Char
  | [] => []
  | it :: rest =>
    match BASE36.get? it.x, BASE36.get? it.y with
    | some xc, some yc => (toString it.size).toList ++ [xc, yc] ++ toPuzzleString rest
    | _, _ => toPuzzleString rest

/-! ### Derived helper definitions used by the statements and proofs -/

/-- The 3-character groups of a decoded string. -/
def groupsOf : List Char → List (Char × Char × Char)
  | a :: b :: c :: rest => (a, b, c) :: groupsOf rest
  | _ => []

/-- A group decodes without error: valid size digit and two base-36 digits. -/
def goodGroup (g : Char × Char × Char) : Prop :=
  isSizeChar g.1 = true ∧ 0 ≤ b36ToIntChar g.2.1 ∧ 0 ≤ b36ToIntChar g.2.2

instance (g : Char × Char × Char) : Decidable (goodGroup g) := by
  unfold goodGroup; infer_instance

/-- The record decoded from one good group. -/
def decodeGroup (g : Char × Char × Char) : PuzzleItem :=
  ⟨g.1.toNat - '0'.toNat, (b36ToIntChar g.2.1).toNat, (b36ToIntChar g.2.2).toNat⟩

/-- The digit character of a size 1..8 (`String(it.size)` has one character). -/
def sizeChar (sz : Nat) : Char := (toString sz).toList.headD ' '

/-- Lengths of the per-size pools, as a count function. -/
def poolLens (pools : Nat → List Nat) : Nat → Nat := fun s => (pools s).length

/-- The `(x, y, size)` triple of a solver placement record. -/
def toP3 (q : Placement) : P3 := (q.x, q.y, q.size)

/-- Replay solver placements onto a grid. -/
def applyPl (g : Grid) : List Placement → Grid
  | [] => g
  | q :: rest => applyPl (placeBlock g q.x q.y q.size (q.pieceId : Int)) rest

/-- Invariants of the solver's pool map: per-size lists have no duplicate ids,
ids are not shared across sizes, ids are positive, and only sizes 1..8 have
pieces. -/
structure PoolsInv (pools : Nat → List Nat) : Prop where
  nodup : ∀ s, (pools s).Nodup
  disj : ∀ s1 s2, s1 ≠ s2 → ∀ pid, pid ∈ pools s1 → pid ∉ pools s2
  pos : ∀ s, ∀ pid ∈ pools s, 1 ≤ pid
  sized : ∀ s, pools s ≠ [] → 1 ≤ s ∧ s ≤ 8

/-- What a successful search run guarantees, relative to the state it started
from: the new placements extend the placement stack, replaying them yields the
final grid, the final grid is full, the new placements form an exact
completion of the starting grid within the available per-size pool counts, and
they use pairwise distinct positive piece ids drawn from the starting pools. -/
def SoundSuccess (n : Nat) (st res : SState) : Prop :=
  ∃ newPl : List Placement,
    res.placements = st.placements ++ newPl ∧
    res.cells = applyPl st.cells newPl ∧
    (∀ xx, xx < n → ∀ yy, yy < n → res.cells yy xx ≠ 0) ∧
    IsCompletion n st.cells (poolLens st.pools) (newPl.map toP3) ∧
    (newPl.map Placement.pieceId).Nodup ∧
    (∀ q ∈ newPl, q.pieceId ∈ st.pools q.size ∧ 1 ≤ q.pieceId)

/-! ## Grid lemmas -/

lemma placeBlock_in (g : Grid) (x y s : Nat) (v : Int) {xx yy : Nat}
    (h : x ≤ xx ∧ xx < x + s ∧ y ≤ yy ∧ yy < y + s) :
    placeBlock g x y s v yy xx = v := by
  unfold placeBlock; rw [if_pos h]

lemma placeBlock_out (g : Grid) (x y s : Nat) (v : Int) {xx yy : Nat}
    (h : ¬(x ≤ xx ∧ xx < x + s ∧ y ≤ yy ∧ yy < y + s)) :
    placeBlock g x y s v yy xx = g yy xx := by
  unfold placeBlock; rw [if_neg h]

lemma scanRowFrom_eq_none {g : Grid} {y : Nat} : ∀ {k x : Nat},
    scanRowFrom g y x k = none ↔ ∀ i, i < k → g y (x + i) ≠ 0 := by
  intro k
  induction k with
  | zero => intro x; simp [scanRowFrom]
  | succ k ih =>
    intro x
    rcases h : g y x == 0 with _ | _
    · have hne : g y x ≠ 0 := by simpa using h
      simp only [scanRowFrom, h, Bool.false_eq_true, if_false]
      rw [@ih (x+1)]
      constructor
      · intro hall i hi
        rcases i with _ | i
        · simpa using hne
        · have := hall i (by omega); convert this using 2; omega
      · intro hall i hi
        have := hall (i + 1) (by omega)
        convert this using 2; omega
    · have heq : g y x = 0 := by simpa using h
      simp only [scanRowFrom, h, if_true]
      constructor
      · intro hc; exact absurd hc (by simp)
      · intro hall; exact absurd heq (by simpa using hall 0 (by omega))

lemma scanRowFrom_eq_some {g : Grid} {y : Nat} : ∀ {k x x2 : Nat},
    scanRowFrom g y x k = some x2 ↔
      x ≤ x2 ∧ x2 < x + k ∧ g y x2 = 0 ∧ ∀ i, x ≤ i → i < x2 → g y i ≠ 0 := by
  intro k
  induction k with
  | zero => intro x x2; simp [scanRowFrom]; omega
  | succ k ih =>
    intro x x2
    rcases h : g y x == 0 with _ | _
    · have hne : g y x ≠ 0 := by simpa using h
      simp only [scanRowFrom, h, Bool.false_eq_true, if_false]
      rw [@ih (x+1) x2]
      constructor
      · rintro ⟨h1, h2, h3, h4⟩
        refine ⟨by omega, by omega, h3, ?_⟩
        intro i hix hi2
        rcases Nat.eq_or_lt_of_le hix with hx | hx
        · rw [← hx]; exact hne
        · exact h4 i hx hi2
      · rintro ⟨h1, h2, h3, h4⟩
        have hxne : x ≠ x2 := by rintro rfl; exact hne h3
        exact ⟨by omega, by omega, h3, fun i hix hi2 => h4 i (by omega) hi2⟩
    · have heq : g y x = 0 := by simpa using h
      simp only [scanRowFrom, h, if_true]
      constructor
      · intro hc
        have : x = x2 := by simpa using hc
        subst this
        exact ⟨le_refl x, by omega, heq, fun i h1 h2 => by omega⟩
      · rintro ⟨h1, h2, h3, h4⟩
        rcases Nat.eq_or_lt_of_le h1 with hx | hx
        · simp [hx]
        · exact absurd heq (h4 x (le_refl x) hx)

lemma scanFrom_eq_none {n : Nat} {g : Grid} : ∀ {k y : Nat},
    scanFrom n g y k = none ↔ ∀ j, j < k → ∀ x, x < n → g (y + j) x ≠ 0 := by
  intro k
  induction k with
  | zero => intro y; simp [scanFrom]
  | succ k ih =>
    intro y
    rcases h : scanRowFrom g y 0 n with _ | x
    · have hrow := scanRowFrom_eq_none.mp h
      simp only [scanFrom, h]
      rw [@ih (y+1)]
      constructor
      · intro hall j hj x hx
        rcases j with _ | j
        · simpa using hrow x hx
        · have := hall j (by omega) x hx; convert this using 2; omega
      · intro hall j hj x hx
        have := hall (j + 1) (by omega) x hx
        convert this using 2; omega
    · obtain ⟨ha, hb, hc2, hd⟩ := scanRowFrom_eq_some.mp h
      simp only [scanFrom, h]
      constructor
      · intro hc; exact absurd hc (by simp)
      · intro hall
        exact absurd hc2 (by simpa using hall 0 (by omega) x (by omega))

lemma scanFrom_eq_some {n : Nat} {g : Grid} : ∀ {k y x2 y2 : Nat},
    scanFrom n g y k = some (x2, y2) ↔
      y ≤ y2 ∧ y2 < y + k ∧ x2 < n ∧ g y2 x2 = 0 ∧
      (∀ j, y ≤ j → j < y2 → ∀ x, x < n → g j x ≠ 0) ∧
      (∀ x, x < x2 → g y2 x ≠ 0) := by
  intro k
  induction k with
  | zero => intro y x2 y2; simp [scanFrom]; omega
  | succ k ih =>
    intro y x2 y2
    rcases h : scanRowFrom g y 0 n with _ | x
    · have hrow := scanRowFrom_eq_none.mp h
      simp only [scanFrom, h]
      rw [@ih (y+1) x2 y2]
      constructor
      · rintro ⟨h1, h2, h3, h4, h5, h6⟩
        refine ⟨by omega, by omega, h3, h4, ?_, h6⟩
        intro j hjy hj2 x hx
        rcases Nat.eq_or_lt_of_le hjy with hj | hj
        · rw [← hj]; simpa using hrow x hx
        · exact h5 j hj hj2 x hx
      · rintro ⟨h1, h2, h3, h4, h5, h6⟩
        have hyne : y ≠ y2 := by
          rintro rfl; exact absurd h4 (by simpa using hrow x2 h3)
        exact ⟨by omega, by omega, h3, h4, fun j hjy hj2 x hx => h5 j (by omega) hj2 x hx, h6⟩
    · obtain ⟨ha, hb, hc2, hd⟩ := scanRowFrom_eq_some.mp h
      simp only [scanFrom, h]
      constructor
      · intro hc
        have hx2 : x = x2 := by simpa using congrArg (fun o => o.map Prod.fst) hc
        have hy2 : y = y2 := by simpa using congrArg (fun o => o.map Prod.snd) hc
        subst hx2; subst hy2
        exact ⟨le_refl y, by omega, by omega, hc2,
          fun j h1 h2 xq hx => by omega, fun xx hxx => hd xx (by omega) hxx⟩
      · rintro ⟨h1, h2, h3, h4, h5, h6⟩
        rcases Nat.eq_or_lt_of_le h1 with hy | hy
        · subst hy
          have hx : x = x2 := by
            rcases Nat.lt_trichotomy x x2 with hcc | hcc | hcc
            · exact absurd hc2 (h6 x hcc)
            · exact hcc
            · exact absurd h4 (hd x2 (by omega) hcc)
          rw [hx]
        · exact absurd hc2 (h5 y (le_refl y) hy x (by omega))

lemma findNextEmpty_eq_none {n : Nat} {g : Grid} {r : Nat} :
    findNextEmpty n g r = none ↔ ∀ yy, r ≤ yy → yy < n → ∀ xx, xx < n → g yy xx ≠ 0 := by
  unfold findNextEmpty
  rw [scanFrom_eq_none]
  constructor
  · intro hall yy h1 h2 xx hx
    have := hall (yy - r) (by omega) xx hx
    convert this using 2; omega
  · intro hall j hj xx hx
    exact hall (r + j) (by omega) (by omega) xx hx

lemma findNextEmpty_eq_some {n : Nat} {g : Grid} {r x y : Nat} :
    findNextEmpty n g r = some (x, y) ↔
      r ≤ y ∧ y < n ∧ x < n ∧ g y x = 0 ∧
      (∀ j, r ≤ j → j < y → ∀ xx, xx < n → g j xx ≠ 0) ∧
      (∀ xx, xx < x → g y xx ≠ 0) := by
  unfold findNextEmpty
  rw [scanFrom_eq_some]
  constructor
  · rintro ⟨h1, h2, h3, h4, h5, h6⟩
    exact ⟨h1, by omega, h3, h4, h5, h6⟩
  · rintro ⟨h1, h2, h3, h4, h5, h6⟩
    exact ⟨h1, by omega, h3, h4, h5, h6⟩

lemma findNextEmpty_skip_rows {n : Nat} {g : Grid} {r : Nat}
    (h : ∀ yy, yy < r → ∀ xx, xx < n → g yy xx ≠ 0) :
    findNextEmpty n g r = findNextEmpty n g 0 := by
  rcases hc : findNextEmpty n g 0 with _ | ⟨x, y⟩
  · rw [findNextEmpty_eq_none] at hc ⊢
    intro yy h1 h2 xx hx
    exact hc yy (by omega) h2 xx hx
  · rw [findNextEmpty_eq_some] at hc ⊢
    obtain ⟨_, h2, h3, h4, h5, h6⟩ := hc
    have hry : r ≤ y := by
      by_contra hcon
      exact h y (by omega) x h3 h4
    exact ⟨hry, h2, h3, h4, fun j hj1 hj2 xx hx => h5 j (by omega) hj2 xx hx, h6⟩

lemma canPlaceAt_iff {n : Nat} {g : Grid} {x y s : Nat} :
    canPlaceAt n g x y s = true ↔
      x + s ≤ n ∧ y + s ≤ n ∧ ∀ xx yy, inBlock (x, y, s) xx yy → g yy xx = 0 := by
  unfold canPlaceAt inBlock
  simp only [Bool.and_eq_true, List.all_eq_true, List.mem_range, decide_eq_true_eq,
    beq_iff_eq]
  constructor
  · rintro ⟨⟨h1, h2⟩, h3⟩
    refine ⟨by exact_mod_cast h1, by exact_mod_cast h2, ?_⟩
    rintro xx yy ⟨hx1, hx2, hy1, hy2⟩
    have := h3 (yy - y) (by omega) (xx - x) (by omega)
    convert this using 2 <;> omega
  · rintro ⟨h1, h2, h3⟩
    refine ⟨⟨by exact_mod_cast h1, by exact_mod_cast h2⟩, ?_⟩
    intro j hj i hi
    exact h3 (x + i) (y + j) ⟨by omega, by omega, by omega, by omega⟩

/-- C7: in every reachable recursive call of the search, the rows strictly
above the starting row are fully packed, so scanning from `startingRow`
finds the first empty cell of the entire grid (and `null` is returned exactly
when the grid is full) — the starting-row optimization never skips an empty
cell. -/
theorem startingRow_never_skips (n : Nat) (g0 g : Grid) (r : Nat) (h : Reach n g0 g r) :
    (∀ yy, yy < r → ∀ xx, xx < n → g yy xx ≠ 0) ∧
    findNextEmpty n g r = findNextEmpty n g 0 ∧
    (findNextEmpty n g r = none ↔ ∀ yy, yy < n → ∀ xx, xx < n → g yy xx ≠ 0) := by
  have main : ∀ yy, yy < r → ∀ xx, xx < n → g yy xx ≠ 0 := by
    induction h with
    | base => intro yy hy; omega
    | step g r x y s id hre hfe h1 h8 hcp hid ih =>
      intro yy hy xx hx
      have hchar := findNextEmpty_eq_some.mp hfe
      rw [placeBlock_out _ _ _ _ _ (by omega)]
      rcases Nat.lt_or_ge yy r with hc | hc
      · exact ih yy hc xx hx
      · exact hchar.2.2.2.2.1 yy hc hy xx hx
  refine ⟨main, findNextEmpty_skip_rows main, ?_⟩
  rw [findNextEmpty_skip_rows main, findNextEmpty_eq_none]
  constructor
  · intro ha yy h2 xx hx; exact ha yy (by omega) h2 xx hx
  · intro ha yy _ h2 xx hx; exact ha yy h2 xx hx

/-- C7 witness: the configuration after placing a 1×1 tile at the first empty
cell of an empty 2×2 board is reachable and satisfies the invariant. -/
theorem startingRow_never_skips_witness :
    (∀ yy, yy < 0 → ∀ xx, xx < 2 → placeBlock (fun _ _ => (0 : Int)) 0 0 1 1 yy xx ≠ 0) ∧
    findNextEmpty 2 (placeBlock (fun _ _ => (0 : Int)) 0 0 1 1) 0 =
      findNextEmpty 2 (placeBlock (fun _ _ => (0 : Int)) 0 0 1 1) 0 ∧
    (findNextEmpty 2 (placeBlock (fun _ _ => (0 : Int)) 0 0 1 1) 0 = none ↔
      ∀ yy, yy < 2 → ∀ xx, xx < 2 → placeBlock (fun _ _ => (0 : Int)) 0 0 1 1 yy xx ≠ 0) :=
  startingRow_never_skips 2 (fun _ _ => 0) _ 0
    (Reach.step _ 0 0 0 1 1 Reach.base (by decide) (by decide) (by decide) (by decide)
      (by decide))

/-! ## Inventory (C8) -/

/-- C8 counterexample: the inventory does not contain one tile of each size —
it contains two tiles of size 2. -/
theorem createInventory_not_one_per_size :
    ((createInventory.filter (fun p => p.size == 2)).length = 2) ∧ (2 : Nat) ≠ 1 := by
  decide

/-- C8 (amended): the inventory is ordered by size and contains `s` tiles of
size `s` for each size s in 1..8 — a triangular total of 1+2+...+8 = 36 tiles —
and its summed area equals the 36×36 board area exactly. -/
theorem createInventory_spec :
    List.Sorted (· ≤ ·) (createInventory.map Piece.size) ∧
    (∀ s, s < 9 → 1 ≤ s → (createInventory.filter (fun p => p.size == s)).length = s) ∧
    createInventory.length = 36 ∧
    (createInventory.map (fun p => p.size * p.size)).sum = 36 * 36 := by
  refine ⟨?_, ?_, ?_, ?_⟩ <;> decide

/-! ## Symmetry transforms (C5) -/

lemma iterRot_comm (f : (Int × Int) → (Int × Int)) :
    ∀ (k : Nat) (p : Int × Int), iterRot f k (f p) = f (iterRot f k p) := by
  intro k
  induction k with
  | zero => intro p; rfl
  | succ k ih => intro p; unfold iterRot; rw [ih]

lemma rotCCW_rotCW (n : Nat) (p : Int × Int) : rotCCWStep n (rotCWStep n p) = p := by
  unfold rotCCWStep rotCWStep
  obtain ⟨a, b⟩ := p
  simp only [Prod.mk.injEq]
  constructor <;> ring

lemma iterRot_inv (n : Nat) : ∀ (k : Nat) (p : Int × Int),
    iterRot (rotCCWStep n) k (iterRot (rotCWStep n) k p) = p := by
  intro k
  induction k with
  | zero => intro p; rfl
  | succ k ih =>
    intro p
    show iterRot (rotCCWStep n) k (rotCCWStep n (iterRot (rotCWStep n) (k+1) p)) = p
    have : iterRot (rotCWStep n) (k+1) p = rotCWStep n (iterRot (rotCWStep n) k p) := by
      show iterRot (rotCWStep n) k (rotCWStep n p) = _
      rw [iterRot_comm]
    rw [this, rotCCW_rotCW, ih]

/-- C5: for every board size, rotation, mirror flag and in-range coordinates,
the transform built by `makeTransform` satisfies `inv(map(x, y)) == (x, y)`. -/
theorem makeTransform_roundtrip (n rot : Nat) (mirror : Bool) (x y : Int)
    (hx0 : 0 ≤ x) (hxn : x < (n : Int)) (hy0 : 0 ≤ y) (hyn : y < (n : Int)) :
    tfInv n rot mirror (tfMap n rot mirror (x, y)) = (x, y) := by
  unfold tfMap tfInv
  rcases mirror with _ | _
  · simp only [Bool.false_eq_true, if_false]
    exact iterRot_inv n _ (x, y)
  · simp only [if_true]
    rw [iterRot_inv n _ (((n : Int) - 1 - x, y))]
    simp only [Prod.mk.injEq]
    refine ⟨by ring, by trivial⟩

/-- C5 witness at a concrete size, rotation, mirror and coordinate. -/
theorem makeTransform_roundtrip_witness :
    tfInv 5 3 true (tfMap 5 3 true (2, 4)) = (2, 4) :=
  makeTransform_roundtrip 5 3 true 2 4 (by decide) (by decide) (by decide) (by decide)

/-! ## Puzzle string encoding (C9, C10) -/

lemma parseGroups_spec : ∀ (i : Nat) (cs : List Char), cs.length % 3 = 0 →
    (((∃ e, parseGroups i cs = Except.error e) ↔ ∃ gp ∈ groupsOf cs, ¬goodGroup gp) ∧
     (∀ out, parseGroups i cs = Except.ok out → out = (groupsOf cs).map decodeGroup) ∧
     (∀ e, parseGroups i cs = Except.error e →
       ∃ k gp, (groupsOf cs).get? k = some gp ∧ ¬goodGroup gp ∧
         ((¬isSizeChar gp.1 = true ∧ e = badSizeMsg gp.1 (i + 3*k)) ∨
          (isSizeChar gp.1 = true ∧ e = badCoordMsg (i + 3*k + 1)))))
  | i, [], _ => by
    refine ⟨by simp [parseGroups, groupsOf], ?_, ?_⟩
    · intro out hout
      simpa [groupsOf] using (by simpa [parseGroups] using hout : [] = out).symm
    · intro e he; exact absurd he (by simp [parseGroups])
  | _, _ :: [], h => by simp at h
  | _, _ :: _ :: [], h => by simp at h
  | i, a :: b :: c :: rest, h => by
    have hrest : rest.length % 3 = 0 := by
      simp only [List.length_cons] at h; omega
    have ih := parseGroups_spec (i+3) rest hrest
    rcases hsz : isSizeChar a with _ | _
    · -- bad size character: immediate error
      refine ⟨?_, ?_, ?_⟩
      · simp only [parseGroups, hsz, Bool.not_false, if_true]
        constructor
        · intro _
          exact ⟨(a, b, c), by simp [groupsOf], by simp [goodGroup, hsz]⟩
        · intro _; exact ⟨badSizeMsg a i, rfl⟩
      · intro out hout
        simp only [parseGroups, hsz, Bool.not_false, if_true] at hout
        exact absurd hout (by simp)
      · intro e he
        simp only [parseGroups, hsz, Bool.not_false, if_true, Except.error.injEq] at he
        exact ⟨0, (a, b, c), by simp [groupsOf], by simp [goodGroup, hsz],
          Or.inl ⟨by simp [hsz], by simpa using he.symm⟩⟩
    · rcases hxy : decide (b36ToIntChar b < 0 ∨ b36ToIntChar c < 0) with _ | _
      · -- good group: recurse
        have hxy2 : ¬(b36ToIntChar b < 0 ∨ b36ToIntChar c < 0) := by
          simpa using hxy
        have hb0 : (0 : Int) ≤ b36ToIntChar b := by omega
        have hc0 : (0 : Int) ≤ b36ToIntChar c := by omega
        have hgb : goodGroup (a, b, c) := ⟨hsz, hb0, hc0⟩
        rcases hr : parseGroups (i+3) rest with e2 | out2
        · -- error below propagates
          refine ⟨?_, ?_, ?_⟩
          · simp only [parseGroups, hsz, Bool.not_true, Bool.false_eq_true, if_false,
              if_neg hxy2, hr]
            constructor
            · intro _
              obtain ⟨gp, hgp, hbad⟩ := ih.1.mp ⟨e2, hr⟩
              exact ⟨gp, by simp [groupsOf, hgp], hbad⟩
            · intro _; exact ⟨e2, rfl⟩
          · intro out hout
            simp only [parseGroups, hsz, Bool.not_true, Bool.false_eq_true, if_false,
              if_neg hxy2, hr] at hout
            exact absurd hout (by simp)
          · intro e he
            simp only [parseGroups, hsz, Bool.not_true, Bool.false_eq_true, if_false,
              if_neg hxy2, hr, Except.error.injEq] at he
            obtain ⟨k, gp, hk, hbad, hmsg⟩ := ih.2.2 e2 hr
            refine ⟨k + 1, gp, by simpa [groupsOf] using hk, hbad, ?_⟩
            subst he
            rcases hmsg with ⟨h1, h2⟩ | ⟨h1, h2⟩
            · exact Or.inl ⟨h1, by rw [h2]; congr 1; omega⟩
            · exact Or.inr ⟨h1, by rw [h2]; congr 1; omega⟩
        · -- success below
          refine ⟨?_, ?_, ?_⟩
          · simp only [parseGroups, hsz, Bool.not_true, Bool.false_eq_true, if_false,
              if_neg hxy2, hr]
            constructor
            · rintro ⟨e, he⟩; exact absurd he (by simp)
            · rintro ⟨gp, hgp, hbad⟩
              simp only [groupsOf, List.mem_cons] at hgp
              rcases hgp with rfl | hgp
              · exact absurd hgb hbad
              · exact absurd (ih.1.mpr ⟨gp, hgp, hbad⟩) (by simp [hr])
          · intro out hout
            simp only [parseGroups, hsz, Bool.not_true, Bool.false_eq_true, if_false,
              if_neg hxy2, hr, Except.ok.injEq] at hout
            rw [← hout]
            simp only [groupsOf, List.map_cons, List.cons.injEq]
            exact ⟨rfl, ih.2.1 out2 hr⟩
          · intro e he
            simp only [parseGroups, hsz, Bool.not_true, Bool.false_eq_true, if_false,
              if_neg hxy2, hr] at he
            exact absurd he (by simp)
      · -- bad coordinate character
        have hxy2 : b36ToIntChar b < 0 ∨ b36ToIntChar c < 0 := by simpa using hxy
        have hbadg : ¬goodGroup (a, b, c) := by
          rintro ⟨_, h1, h2⟩
          have h1b : (0 : Int) ≤ b36ToIntChar b := h1
          have h2c : (0 : Int) ≤ b36ToIntChar c := h2
          rcases hxy2 with hc | hc <;> omega
        refine ⟨?_, ?_, ?_⟩
        · simp only [parseGroups, hsz, Bool.not_true, Bool.false_eq_true, if_false,
            if_pos hxy2]
          constructor
          · intro _
            exact ⟨(a, b, c), by simp [groupsOf], hbadg⟩
          · intro _; exact ⟨badCoordMsg (i+1), rfl⟩
        · intro out hout
          simp only [parseGroups, hsz, Bool.not_true, Bool.false_eq_true, if_false,
            if_pos hxy2] at hout
          exact absurd hout (by simp)
        · intro e he
          simp only [parseGroups, hsz, Bool.not_true, Bool.false_eq_true, if_false,
            if_pos hxy2, Except.error.injEq] at he
          exact ⟨0, (a, b, c), by simp [groupsOf], hbadg,
            Or.inr ⟨hsz, by simpa using he.symm⟩⟩

/-- C9 (amended): decoding fails exactly when the trimmed input length is not
a multiple of 3 (message "length must be multiple of 3"), when a group's first
character is not a digit 1..8 (message naming that character and its
position), or when one of the two coordinate characters is not a base-36
digit — where the coordinate error always reports the position of the group's
first coordinate (x) character, even when the offending character is the y
coordinate; on any other input decoding succeeds and returns one {size, x, y}
record per 3-character group. -/
theorem parsePuzzleString_spec (s : List Char) :
    ((∃ e, parsePuzzleString s = Except.error e) ↔
      (s.isEmpty = false ∧
        ((jsTrim s).length % 3 ≠ 0 ∨ ∃ gp ∈ groupsOf (jsTrim s), ¬goodGroup gp))) ∧
    (∀ out, parsePuzzleString s = Except.ok out → out = (groupsOf (jsTrim s)).map decodeGroup) ∧
    (∀ e, parsePuzzleString s = Except.error e →
      (e = lengthMsg ∧ (jsTrim s).length % 3 ≠ 0) ∨
      ∃ k gp, (groupsOf (jsTrim s)).get? k = some gp ∧ ¬goodGroup gp ∧
        ((¬isSizeChar gp.1 = true ∧ e = badSizeMsg gp.1 (3*k)) ∨
         (isSizeChar gp.1 = true ∧ e = badCoordMsg (3*k + 1)))) := by
  rcases hemp : s.isEmpty with _ | _
  · -- non-empty input
    rcases hlen : decide ((jsTrim s).length % 3 = 0) with _ | _
    · have hlen2 : (jsTrim s).length % 3 ≠ 0 := by simpa using hlen
      refine ⟨?_, ?_, ?_⟩
      · simp only [parsePuzzleString, hemp, Bool.false_eq_true, if_false, if_pos hlen2]
        exact ⟨fun _ => ⟨by simp [hemp], Or.inl hlen2⟩, fun _ => ⟨lengthMsg, rfl⟩⟩
      · intro out hout
        simp only [parsePuzzleString, hemp, Bool.false_eq_true, if_false,
          if_pos hlen2] at hout
        exact absurd hout (by simp)
      · intro e he
        simp only [parsePuzzleString, hemp, Bool.false_eq_true, if_false,
          if_pos hlen2, Except.error.injEq] at he
        exact Or.inl ⟨he.symm, hlen2⟩
    · have hlen2 : (jsTrim s).length % 3 = 0 := by simpa using hlen
      have hps : parsePuzzleString s = parseGroups 0 (jsTrim s) := by
        simp only [parsePuzzleString, hemp, Bool.false_eq_true, if_false,
          if_neg (by omega : ¬(jsTrim s).length % 3 ≠ 0)]
      have hg := parseGroups_spec 0 (jsTrim s) hlen2
      refine ⟨?_, ?_, ?_⟩
      · rw [hps, hg.1]
        constructor
        · intro hb; exact ⟨rfl, Or.inr hb⟩
        · rintro ⟨_, hc | hb⟩
          · omega
          · exact hb
      · intro out hout; rw [hps] at hout; exact hg.2.1 out hout
      · intro e he
        rw [hps] at he
        obtain ⟨k, gp, hk, hbad, hmsg⟩ := hg.2.2 e he
        exact Or.inr ⟨k, gp, hk, hbad, by simpa using hmsg⟩
  · -- empty input: decodes to []
    have hs : s = [] := by
      cases s
      · rfl
      · simp [List.isEmpty] at hemp
    subst hs
    refine ⟨?_, ?_, ?_⟩
    · simp [parsePuzzleString]
    · intro out hout
      have : out = [] := by simpa [parsePuzzleString] using hout.symm
      simp [this, jsTrim, groupsOf, List.dropWhile]
    · intro e he; exact absurd he (by simp [parsePuzzleString])

/-- C9 witness: on the input "10!" the y coordinate character is invalid and
the reported message is "bad coord at 1". -/
theorem parsePuzzleString_spec_witness :
    (badCoordMsg 1 = lengthMsg ∧ (jsTrim ('1' :: '0' :: '!' :: [])).length % 3 ≠ 0) ∨
    ∃ k gp, (groupsOf (jsTrim ('1' :: '0' :: '!' :: []))).get? k = some gp ∧ ¬goodGroup gp ∧
      ((¬isSizeChar gp.1 = true ∧ badCoordMsg 1 = badSizeMsg gp.1 (3*k)) ∨
       (isSizeChar gp.1 = true ∧ badCoordMsg 1 = badCoordMsg (3*k + 1))) :=
  (parsePuzzleString_spec ('1' :: '0' :: '!' :: [])).2.2 (badCoordMsg 1) rfl

/-- C9 counterexample: on "10!" the offending character '!' sits at position
2, but the error message names position 1, whose character '0' is a valid
base-36 digit — so the error does not identify the offending character
position. -/
theorem parsePuzzleString_position_counterexample :
    parsePuzzleString ('1' :: '0' :: '!' :: []) = Except.error (badCoordMsg 1) ∧
    badCoordMsg 1 = "bad coord at 1" ∧
    0 ≤ b36ToIntChar '0' ∧ b36ToIntChar '!' < 0 := by
  refine ⟨rfl, rfl, by decide, by decide⟩

lemma jsTrim_eq_self {cs : List Char} (h : ∀ c ∈ cs, isJsSpace c = false) :
    jsTrim cs = cs := by
  have hdrop : ∀ (l : List Char), (∀ c ∈ l, isJsSpace c = false) →
      l.dropWhile isJsSpace = l := by
    intro l hl
    cases l with
    | nil => rfl
    | cons a rest => simp [List.dropWhile, hl a (by simp)]
  unfold jsTrim
  rw [hdrop cs h, hdrop cs.reverse (by intro c hc; exact h c (by simpa using hc)),
    List.reverse_reverse]

lemma sizeChar_facts : ∀ sz, sz < 9 → 1 ≤ sz →
    (toString sz).toList = [sizeChar sz] ∧ isSizeChar (sizeChar sz) = true ∧
    (sizeChar sz).toNat - '0'.toNat = sz ∧ isJsSpace (sizeChar sz) = false := by
  decide

lemma base36_facts : ∀ v, v < 36 →
    BASE36.get? v = some (BASE36.getD v ' ') ∧
    b36ToIntChar (BASE36.getD v ' ') = (v : Int) ∧
    isJsSpace (BASE36.getD v ' ') = false := by
  decide

lemma toPuzzleString_cons {it : PuzzleItem} {rest : List PuzzleItem}
    (hx : it.x ≤ 35) (hy : it.y ≤ 35) :
    toPuzzleString (it :: rest) =
      (toString it.size).toList ++ [BASE36.getD it.x ' ', BASE36.getD it.y ' '] ++
        toPuzzleString rest := by
  have h1 := (base36_facts it.x (by omega)).1
  have h2 := (base36_facts it.y (by omega)).1
  simp only [toPuzzleString, h1, h2]

lemma toPuzzleString_chars : ∀ {items : List PuzzleItem},
    (∀ it ∈ items, 1 ≤ it.size ∧ it.size ≤ 8 ∧ it.x ≤ 35 ∧ it.y ≤ 35) →
    (∀ c ∈ toPuzzleString items, isJsSpace c = false) ∧
      (toPuzzleString items).length = 3 * items.length := by
  intro items
  induction items with
  | nil => intro _; exact ⟨by simp [toPuzzleString], by simp [toPuzzleString]⟩
  | cons it rest ih =>
    intro h
    obtain ⟨h1, h2, h3, h4⟩ := h it (by simp)
    have hr := ih (fun q hq => h q (by simp [hq]))
    have hsz := sizeChar_facts it.size (by omega) h1
    rw [toPuzzleString_cons h3 h4]
    constructor
    · intro c hc
      rw [List.mem_append, List.mem_append] at hc
      rcases hc with hc | hc
      · rcases hc with hc | hc
        · rw [hsz.1] at hc
          simp only [List.mem_singleton] at hc
          subst hc
          exact hsz.2.2.2
        · simp only [List.mem_cons] at hc
          rcases hc with rfl | rfl | hfalse
          · exact (base36_facts it.x (by omega)).2.2
          · exact (base36_facts it.y (by omega)).2.2
          · simp at hfalse
      · exact hr.1 c hc
    · simp only [hsz.1, List.length_append, List.length_cons, List.length_singleton,
        List.length_nil, hr.2, List.length_cons]
      omega

lemma parseGroups_encode : ∀ (items : List PuzzleItem) (i : Nat),
    (∀ it ∈ items, 1 ≤ it.size ∧ it.size ≤ 8 ∧ it.x ≤ 35 ∧ it.y ≤ 35) →
    parseGroups i (toPuzzleString items) = Except.ok items
  | [], _, _ => rfl
  | ⟨szv, xv, yv⟩ :: rest, i, h => by
    obtain ⟨h1, h2, h3, h4⟩ := h ⟨szv, xv, yv⟩ (by simp)
    have h1b : 1 ≤ szv := h1
    have h2b : szv ≤ 8 := h2
    have h3b : xv ≤ 35 := h3
    have h4b : yv ≤ 35 := h4
    have hsz := sizeChar_facts szv (by omega) h1b
    have hbx := base36_facts xv (by omega)
    have hby := base36_facts yv (by omega)
    have ih := parseGroups_encode rest (i+3) (fun q hq => h q (by simp [hq]))
    have hcons := @toPuzzleString_cons ⟨szv, xv, yv⟩ rest h3 h4
    rw [hcons]
    have hsz1 : (toString (PuzzleItem.mk szv xv yv).size).toList = [sizeChar szv] := hsz.1
    rw [hsz1]
    show parseGroups i (sizeChar szv :: BASE36.getD xv ' ' :: BASE36.getD yv ' ' ::
      toPuzzleString rest) = Except.ok (⟨szv, xv, yv⟩ :: rest)
    simp only [parseGroups, hsz.2.1, Bool.not_true, Bool.false_eq_true, if_false,
      hbx.2.1, hby.2.1, ih]
    rw [if_neg (by simp)]
    simp only [Except.ok.injEq, List.cons.injEq]
    refine ⟨?_, trivial⟩
    simp only [PuzzleItem.mk.injEq]
    exact ⟨hsz.2.2.1, by simp, by simp⟩

/-- C10: for every list of items with sizes 1..8 and coordinates 0..35,
`parsePuzzleString(toPuzzleString(items))` succeeds and returns the same
records in the same order. -/
theorem puzzleString_roundtrip (items : List PuzzleItem)
    (h : ∀ it ∈ items, 1 ≤ it.size ∧ it.size ≤ 8 ∧ it.x ≤ 35 ∧ it.y ≤ 35) :
    parsePuzzleString (toPuzzleString items) = Except.ok items := by
  cases items with
  | nil => rfl
  | cons it rest =>
    have hchars := toPuzzleString_chars h
    have hne : (toPuzzleString (it :: rest)).isEmpty = false := by
      rcases hcs : toPuzzleString (it :: rest) with _ | ⟨c, cs⟩
      · exfalso
        have := hchars.2
        rw [hcs] at this
        simp at this
      · rfl
    unfold parsePuzzleString
    rw [hne]
    simp only [Bool.false_eq_true, if_false]
    rw [jsTrim_eq_self hchars.1]
    rw [if_neg (by rw [hchars.2]; omega)]
    exact parseGroups_encode (it :: rest) 0 h

/-- C10 witness at a concrete item list. -/
theorem puzzleString_roundtrip_witness :
    parsePuzzleString (toPuzzleString [⟨2, 16, 35⟩, ⟨8, 0, 0⟩]) =
      Except.ok [⟨2, 16, 35⟩, ⟨8, 0, 0⟩] :=
  puzzleString_roundtrip [⟨2, 16, 35⟩, ⟨8, 0, 0⟩] (by decide)

/-! ## Canonicalizing transform (C6) -/

lemma chooseStep_fold (n : Nat) (g : Grid) : ∀ (l : List (Nat × Bool)) (tfa : Nat × Bool) (sa : Int),
    sa = transformKey n g tfa.1 tfa.2 →
    ∃ tfb sb, l.foldl (chooseStep n g) (some (tfa, sa)) = some (tfb, sb) ∧
      sb = transformKey n g tfb.1 tfb.2 ∧ sb ≤ sa ∧
      (∀ u ∈ l, sb ≤ transformKey n g u.1 u.2) ∧
      ((tfb = tfa ∧ sb = sa) ∨
        (sb < sa ∧ ∃ l1 l2, l = l1 ++ tfb :: l2 ∧
          ∀ u ∈ l1, sb < transformKey n g u.1 u.2)) := by
  intro l
  induction l with
  | nil =>
    intro tfa sa ha
    exact ⟨tfa, sa, rfl, ha, le_refl sa, by simp, Or.inl ⟨rfl, rfl⟩⟩
  | cons u l ih =>
    intro tfa sa ha
    rcases hlt : decide (transformKey n g u.1 u.2 < sa) with _ | _
    · -- key u ≥ sa: accumulator kept
      have hge : ¬transformKey n g u.1 u.2 < sa := by simpa using hlt
      have hstep : chooseStep n g (some (tfa, sa)) u = some (tfa, sa) := by
        simp [chooseStep, if_neg hge]
      rw [List.foldl_cons, hstep]
      obtain ⟨tfb, sb, hf, hkey, hle, hall, hdisj⟩ := ih tfa sa ha
      refine ⟨tfb, sb, hf, hkey, hle, ?_, ?_⟩
      · intro v hv
        rcases List.mem_cons.mp hv with rfl | hv
        · omega
        · exact hall v hv
      · rcases hdisj with h1 | ⟨h1, l1, l2, heq, hpre⟩
        · exact Or.inl h1
        · exact Or.inr ⟨h1, u :: l1, l2, by rw [heq]; simp, by
            intro v hv
            rcases List.mem_cons.mp hv with rfl | hv
            · omega
            · exact hpre v hv⟩
    · -- key u < sa: accumulator replaced by u
      have hlt2 : transformKey n g u.1 u.2 < sa := by simpa using hlt
      have hstep : chooseStep n g (some (tfa, sa)) u = some (u, transformKey n g u.1 u.2) := by
        simp [chooseStep, if_pos hlt2]
      rw [List.foldl_cons, hstep]
      obtain ⟨tfb, sb, hf, hkey, hle, hall, hdisj⟩ := ih u (transformKey n g u.1 u.2) rfl
      refine ⟨tfb, sb, hf, hkey, by omega, ?_, ?_⟩
      · intro v hv
        rcases List.mem_cons.mp hv with rfl | hv
        · exact hle
        · exact hall v hv
      · rcases hdisj with ⟨rfl, h2⟩ | ⟨h1, l1, l2, heq, hpre⟩
        · exact Or.inr ⟨by omega, [], l, by simp, by simp⟩
        · exact Or.inr ⟨by omega, u :: l1, l2, by rw [heq]; simp, by
            intro v hv
            rcases List.mem_cons.mp hv with rfl | hv
            · omega
            · exact hpre v hv⟩

lemma transformKey_congr {n : Nat} {g g2 : Grid}
    (h : ∀ x, x < n → ∀ y, y < n → (g y x = 0 ↔ g2 y x = 0)) (rot : Nat) (mirror : Bool) :
    transformKey n g rot mirror = transformKey n g2 rot mirror := by
  unfold transformKey
  congr 1
  apply List.map_congr_left
  intro y hy
  congr 1
  apply List.map_congr_left
  intro x hx
  have hxy := h x (List.mem_range.mp hx) y (List.mem_range.mp hy)
  by_cases hg : g y x = 0
  · rw [if_pos (by simpa using hg), if_pos (by simpa using hxy.mp hg)]
  · rw [if_neg (by simpa using hg), if_neg (by simpa using fun hc => hg (hxy.mpr hc))]

/-- C6: `chooseBestTransform` returns, among the 8 square symmetries, a
transform minimizing the key (the sum over filled cells of `x' + y'*N`), with
ties broken by the enumeration order (rotation 0..3 outer, mirror=false before
mirror=true, so the returned transform is the first one attaining the
minimum); and the choice depends only on the occupancy of the cells, so two
calls on equal occupancies return the same transform. -/
theorem chooseBestTransform_spec (b : Board) :
    ((chooseBestTransform b).2 =
      transformKey b.size b.cells (chooseBestTransform b).1.1 (chooseBestTransform b).1.2) ∧
    (∀ u ∈ symmetryList, (chooseBestTransform b).2 ≤ transformKey b.size b.cells u.1 u.2) ∧
    (∃ l1 l2, symmetryList = l1 ++ (chooseBestTransform b).1 :: l2 ∧
      ∀ u ∈ l1, (chooseBestTransform b).2 < transformKey b.size b.cells u.1 u.2) ∧
    (∀ b2 : Board, b2.size = b.size →
      (∀ x, x < b.size → ∀ y, y < b.size → (b.cells y x = 0 ↔ b2.cells y x = 0)) →
      chooseBestTransform b2 = chooseBestTransform b) := by
  have hsym : symmetryList = (0, false) :: [(0, true), (1, false), (1, true), (2, false),
      (2, true), (3, false), (3, true)] := rfl
  have hstep0 : ∀ (n : Nat) (g : Grid), chooseStep n g none (0, false) =
      some ((0, false), transformKey n g 0 false) := fun n g => rfl
  obtain ⟨tfb, sb, hf, hkey, hle, hall, hdisj⟩ :=
    chooseStep_fold b.size b.cells [(0, true), (1, false), (1, true), (2, false),
      (2, true), (3, false), (3, true)] (0, false) (transformKey b.size b.cells 0 false) rfl
  have hmain : chooseBestTransform b = (tfb, sb) := by
    unfold chooseBestTransform
    rw [hsym, List.foldl_cons, hstep0, hf]
    rfl
  refine ⟨by rw [hmain]; exact hkey, ?_, ?_, ?_⟩
  · intro u hu
    rw [hmain]
    rw [hsym] at hu
    rcases List.mem_cons.mp hu with rfl | hu
    · exact hle
    · exact hall u hu
  · rw [hmain]
    rcases hdisj with ⟨rfl, h2⟩ | ⟨h1, l1, l2, heq, hpre⟩
    · exact ⟨[], [(0, true), (1, false), (1, true), (2, false), (2, true), (3, false),
        (3, true)], by rw [hsym]; rfl, by simp⟩
    · refine ⟨(0, false) :: l1, l2, by rw [hsym, heq]; rfl, ?_⟩
      intro v hv
      rcases List.mem_cons.mp hv with rfl | hv
      · exact h1
      · exact hpre v hv
  · intro b2 hsize hocc
    have hkeys : ∀ (rot : Nat) (mirror : Bool),
        transformKey b2.size b2.cells rot mirror = transformKey b.size b.cells rot mirror := by
      intro rot mirror
      rw [hsize]
      exact (transformKey_congr (fun x hx y hy => (hocc x hx y hy).symm) rot mirror)
    have hstepeq : chooseStep b2.size b2.cells = chooseStep b.size b.cells := by
      funext acc tf
      unfold chooseStep
      rw [hkeys tf.1 tf.2]
    unfold chooseBestTransform
    rw [hstepeq]

/-- C6 witness: two boards with the same occupancy but different tile ids get
the same transform. -/
theorem chooseBestTransform_spec_witness :
    chooseBestTransform ⟨2, fun y x => if y = 0 ∧ x = 0 then (7 : Int) else 0, 1⟩ =
      chooseBestTransform ⟨2, fun y x => if y = 0 ∧ x = 0 then (1 : Int) else 0, 1⟩ :=
  (chooseBestTransform_spec ⟨2, fun y x => if y = 0 ∧ x = 0 then (1 : Int) else 0, 1⟩).2.2.2
    ⟨2, fun y x => if y = 0 ∧ x = 0 then (7 : Int) else 0, 1⟩ rfl (by decide)

/-! ## Solver result shape (C3) and failure frame (C4) -/

/-- C3 (amended): every run of the exact-completion solver returns exactly one
of three pairwise distinguishable values: success `{ok: true, count}` carrying
the number of placements applied to the caller's state (the placements
themselves are applied to the board/inventory, not carried in the result),
failure `{ok: false}` with no reason field when the search exhausts without a
solution, or failure `{ok: false, reason: 'cancel'}` when the run was
cancelled; in particular the two failures are distinguishable by the presence
of the reason field. -/
theorem solveResult_trichotomy (state : GState) (orders : Nat → List Nat)
    (cancel : Nat → Bool) :
    ((∃ k, (solveRemainingAsync state orders cancel).1 = ⟨true, none, some k⟩) ∨
      (solveRemainingAsync state orders cancel).1 = ⟨false, none, none⟩ ∨
      (solveRemainingAsync state orders cancel).1 = ⟨false, some "cancel", none⟩) ∧
    (∀ k, (⟨true, none, some k⟩ : SolveResult) ≠ ⟨false, none, none⟩) ∧
    (∀ k, (⟨true, none, some k⟩ : SolveResult) ≠ ⟨false, some "cancel", none⟩) ∧
    ((⟨false, none, none⟩ : SolveResult) ≠ ⟨false, some "cancel", none⟩) := by
  refine ⟨?_, by intro k; simp, by intro k; simp, by simp⟩
  simp only [solveRemainingAsync]
  split
  · right; right; rfl
  · split
    · right; left; rfl
    · left; exact ⟨_, rfl⟩

/-- C3 counterexample: on a 2×2 board with only one 1×1 tile no completion
exists and the run is never cancelled, yet the result is `{ok: false}` with no
reason field — not a failure with reason "no-solution" (and the success shape
carries a count, not a placement list). -/
theorem solveResult_reason_counterexample :
    (solveRemainingAsync ⟨⟨2, fun _ _ => 0, 0⟩, [⟨1, 1, 0, 0, false, false⟩], [], []⟩
      (fun _ => [1]) (fun _ => false)).1 = ⟨false, none, none⟩ ∧
    (⟨false, none, none⟩ : SolveResult).reason ≠ some "no-solution" := by
  exact ⟨rfl, by simp⟩

/-- C4: whenever `solveRemainingAsync` ends in failure — cancelled or no
solution — the caller's state (board cells, filled count, inventory and undo
log) is returned exactly as it was; the search touched only its private copy
of the grid. -/
theorem solveRemaining_failure_frame (state : GState) (orders : Nat → List Nat)
    (cancel : Nat → Bool)
    (h : (solveRemainingAsync state orders cancel).1.ok = false) :
    (solveRemainingAsync state orders cancel).2 = state := by
  simp only [solveRemainingAsync] at h ⊢
  split
  · rfl
  · split
    · rfl
    · exfalso
      rename_i hc1 hc2
      rw [if_neg hc1, if_neg hc2] at h
      simp at h

/-- C4 witness: the failing 2×2 run hands back the caller's state unchanged. -/
theorem solveRemaining_failure_frame_witness :
    (solveRemainingAsync ⟨⟨2, fun _ _ => 0, 0⟩, [⟨1, 1, 0, 0, false, false⟩], [], []⟩
      (fun _ => [1]) (fun _ => false)).2 =
      ⟨⟨2, fun _ _ => 0, 0⟩, [⟨1, 1, 0, 0, false, false⟩], [], []⟩ :=
  solveRemaining_failure_frame ⟨⟨2, fun _ _ => 0, 0⟩, [⟨1, 1, 0, 0, false, false⟩], [], []⟩
    (fun _ => [1]) (fun _ => false) (by rfl)

/-! ## Search-state restoration on failure -/

lemma placeBlock_cancel {n : Nat} {g : Grid} {x y s : Nat} {v : Int}
    (h : canPlaceAt n g x y s = true) :
    placeBlock (placeBlock g x y s v) x y s 0 = g := by
  funext yy xx
  by_cases hin : x ≤ xx ∧ xx < x + s ∧ y ≤ yy ∧ yy < y + s
  · rw [placeBlock_in _ _ _ _ _ hin]
    exact ((canPlaceAt_iff.mp h).2.2 xx yy ⟨hin.1, hin.2.1, hin.2.2.1, hin.2.2.2⟩).symm
  · rw [placeBlock_out _ _ _ _ _ hin, placeBlock_out _ _ _ _ _ hin]

lemma updPools_same (pools : Nat → List Nat) (s : Nat) :
    updPools pools s (pools s) = pools := by
  funext s2
  unfold updPools
  by_cases h : s2 = s
  · rw [if_pos h, h]
  · rw [if_neg h]

lemma updPools_at (pools : Nat → List Nat) (s : Nat) (v : List Nat) :
    updPools pools s v s = v := by
  unfold updPools; rw [if_pos rfl]

lemma updPools_ne (pools : Nat → List Nat) (s : Nat) (v : List Nat) {s2 : Nat} (h : s2 ≠ s) :
    updPools pools s v s2 = pools s2 := by
  unfold updPools; rw [if_neg h]

lemma pool_restore {l : List Nat} (h : l ≠ []) : l.dropLast ++ [l.getLastD 0] = l := by
  have h2 : l.getLastD 0 = l.getLast h := by
    rw [List.getLastD_eq_getLast?, List.getLast?_eq_getLast l h]
    rfl
  rw [h2, List.dropLast_append_getLast h]

lemma trySizes_restore (n : Nat) (cancel : Nat → Bool) (recur : Nat → SState → Bool × SState)
    (hrec : ∀ yy st, (recur yy st).1 = false →
      ((recur yy st).2.cells = st.cells ∧ (recur yy st).2.pools = st.pools ∧
        (recur yy st).2.placements = st.placements)) (x y : Nat) :
    ∀ (l : List Nat) (st : SState), (trySizes n cancel recur x y l st).1 = false →
      ((trySizes n cancel recur x y l st).2.cells = st.cells ∧
       (trySizes n cancel recur x y l st).2.pools = st.pools ∧
       (trySizes n cancel recur x y l st).2.placements = st.placements) := by
  intro l
  induction l with
  | nil => intro st _; exact ⟨rfl, rfl, rfl⟩
  | cons s rest ih =>
    intro st hfalse
    rcases hc : cancel st.t with _ | _
    · rcases hemp : ((bumpT st).pools s).isEmpty with _ | _
      · rcases hcp : canPlaceAt n (bumpT st).cells x y s with _ | _
        · -- skipped: cannot place
          have hres : trySizes n cancel recur x y (s :: rest) st =
              trySizes n cancel recur x y rest (bumpT st) := by
            simp only [trySizes, hc, Bool.false_eq_true, if_false, hemp, hcp, Bool.not_false,
              if_true]
          rw [hres] at hfalse ⊢
          exact ih (bumpT st) hfalse
        · -- placed, recursion came back false (otherwise the result is true)
          have hpool : (bumpT st).pools s ≠ [] := by
            intro hnil
            rw [hnil] at hemp
            simp at hemp
          set st1 := bumpT st with hst1
          set pool := st1.pools s with hpooldef
          set pid := pool.getLastD 0 with hpid
          set st2 : SState :=
            { st1 with
              cells := placeBlock st1.cells x y s (pid : Int),
              pools := updPools st1.pools s pool.dropLast,
              placements := st1.placements ++ [⟨pid, x, y, s⟩] } with hst2
          have hres : trySizes n cancel recur x y (s :: rest) st =
              (if (recur y st2).1 then (true, (recur y st2).2)
               else
                 (let st3 : SState :=
                    { (recur y st2).2 with
                      cells := placeBlock (recur y st2).2.cells x y s 0,
                      pools := updPools (recur y st2).2.pools s ((recur y st2).2.pools s ++ [pid]),
                      placements := (recur y st2).2.placements.dropLast }
                  if cancel st3.t then (false, bumpT st3)
                  else trySizes n cancel recur x y rest (bumpT st3))) := by
            simp only [trySizes, hc, Bool.false_eq_true, if_false, hemp, hcp, Bool.not_true,
              if_true, ← hst1, ← hpooldef, ← hpid, ← hst2]
          rcases hr1 : (recur y st2).1 with _ | _
          · -- recursion failed: the explicit undo restores the state exactly
            obtain ⟨hcells2, hpools2, hpl2⟩ := hrec y st2 hr1
            have hcells3 : placeBlock (recur y st2).2.cells x y s 0 = st1.cells := by
              rw [hcells2]
              exact placeBlock_cancel hcp
            have hpools3 : updPools (recur y st2).2.pools s ((recur y st2).2.pools s ++ [pid]) =
                st1.pools := by
              rw [hpools2]
              show updPools (updPools st1.pools s pool.dropLast) s
                (updPools st1.pools s pool.dropLast s ++ [pid]) = st1.pools
              rw [updPools_at]
              have : pool.dropLast ++ [pid] = pool := pool_restore hpool
              funext s2
              by_cases hs2 : s2 = s
              · subst hs2
                rw [updPools_at, this]
              · rw [updPools_ne _ _ _ hs2, updPools_ne _ _ _ hs2]
            have hpl3 : (recur y st2).2.placements.dropLast = st1.placements := by
              rw [hpl2]
              show (st1.placements ++ [(⟨pid, x, y, s⟩ : Placement)]).dropLast = st1.placements
              simp
            rw [hres] at hfalse ⊢
            rw [if_neg (by simp [hr1])] at hfalse ⊢
            rcases hc3 : cancel ({ (recur y st2).2 with
                cells := placeBlock (recur y st2).2.cells x y s 0,
                pools := updPools (recur y st2).2.pools s ((recur y st2).2.pools s ++ [pid]),
                placements := (recur y st2).2.placements.dropLast } : SState).t with _ | _
            · rw [if_neg (by simp [hc3])] at hfalse ⊢
              have := ih _ hfalse
              rw [this.1, this.2.1, this.2.2]
              exact ⟨hcells3, hpools3, hpl3⟩
            · rw [if_pos (by simp [hc3])] at hfalse ⊢
              exact ⟨hcells3, hpools3, hpl3⟩
          · -- recursion succeeded: the overall result is true, contradiction
            rw [hres] at hfalse
            rw [if_pos (by simp [hr1])] at hfalse
            simp at hfalse
      · -- skipped: pool empty
        have hres : trySizes n cancel recur x y (s :: rest) st =
            trySizes n cancel recur x y rest (bumpT st) := by
          simp only [trySizes, hc, Bool.false_eq_true, if_false, hemp, if_true]
        rw [hres] at hfalse ⊢
        exact ih (bumpT st) hfalse
    · -- cancelled at the head of the loop
      have hres : trySizes n cancel recur x y (s :: rest) st = (false, bumpT st) := by
        simp only [trySizes, hc, if_true]
      rw [hres]
      exact ⟨rfl, rfl, rfl⟩

lemma backtrack_restore (n : Nat) (orders : Nat → List Nat) (cancel : Nat → Bool) :
    ∀ (fuel depth r : Nat) (st : SState),
      (backtrack n orders cancel fuel depth r st).1 = false →
      ((backtrack n orders cancel fuel depth r st).2.cells = st.cells ∧
       (backtrack n orders cancel fuel depth r st).2.pools = st.pools ∧
       (backtrack n orders cancel fuel depth r st).2.placements = st.placements) := by
  intro fuel
  induction fuel with
  | zero => intro depth r st _; exact ⟨rfl, rfl, rfl⟩
  | succ fuel ih =>
    intro depth r st hfalse
    rcases hc : cancel st.t with _ | _
    · rcases hf : findNextEmpty n (bumpT st).cells r with _ | ⟨x, y⟩
      · -- full grid: result is true, contradiction
        have : backtrack n orders cancel (fuel+1) depth r st = (true, bumpT st) := by
          simp only [backtrack, hc, Bool.false_eq_true, if_false, hf]
        rw [this] at hfalse
        simp at hfalse
      · have hres : backtrack n orders cancel (fuel+1) depth r st =
            trySizes n cancel (fun yy stt => backtrack n orders cancel fuel (depth+1) yy stt)
              x y (orders depth) (bumpT st) := by
          simp only [backtrack, hc, Bool.false_eq_true, if_false, hf]
        rw [hres] at hfalse ⊢
        exact trySizes_restore n cancel _ (fun yy stt => ih (depth+1) yy stt) x y
          (orders depth) (bumpT st) hfalse
    · have : backtrack n orders cancel (fuel+1) depth r st = (false, bumpT st) := by
        simp only [backtrack, hc, if_true]
      rw [this]
      exact ⟨rfl, rfl, rfl⟩

/-! ## Cell counting -/

lemma length_filter_add_length_filter_not (p : Nat → Bool) : ∀ (l : List Nat),
    (l.filter p).length + (l.filter (fun a => !p a)).length = l.length := by
  intro l
  induction l with
  | nil => rfl
  | cons a t ih =>
    rcases h : p a with _ | _
    · simp only [List.filter_cons, h, Bool.not_false, if_true, Bool.false_eq_true, if_false,
        List.length_cons]
      omega
    · simp only [List.filter_cons, h, Bool.not_true, if_true, Bool.false_eq_true, if_false,
        List.length_cons]
      omega

lemma sum_map_add (f h : Nat → Nat) : ∀ (l : List Nat),
    (l.map (fun a => f a + h a)).sum = (l.map f).sum + (l.map h).sum := by
  intro l
  induction l with
  | nil => rfl
  | cons a t ih => simp only [List.map_cons, List.sum_cons, ih]; omega

lemma sum_map_congr {f h : Nat → Nat} : ∀ {l : List Nat}, (∀ a ∈ l, f a = h a) →
    (l.map f).sum = (l.map h).sum := by
  intro l
  induction l with
  | nil => intro _; rfl
  | cons a t ih =>
    intro hall
    simp only [List.map_cons, List.sum_cons]
    rw [hall a (by simp), ih (fun b hb => hall b (by simp [hb]))]

lemma sum_map_shift {f h : Nat → Nat} {s : Nat} : ∀ {l : List Nat},
    (∀ a ∈ l, f a + s = h a) → (l.map f).sum + s * l.length = (l.map h).sum := by
  intro l
  induction l with
  | nil => intro _; simp
  | cons a t ih =>
    intro hall
    simp only [List.map_cons, List.sum_cons, List.length_cons]
    have h1 := hall a (by simp)
    have h2 := ih (fun b hb => hall b (by simp [hb]))
    have h3 : s * (t.length + 1) = s * t.length + s := by ring
    omega

lemma mem_range1 {s n m : Nat} : m ∈ List.range' s n ↔ s ≤ m ∧ m < s + n := by
  rw [List.mem_range']
  constructor
  · rintro ⟨i, hi, rfl⟩; omega
  · intro h; exact ⟨m - s, by omega, by omega⟩

lemma inBlock_mk {x y s xx yy : Nat} :
    inBlock (x, y, s) xx yy ↔ (x ≤ xx ∧ xx < x + s ∧ y ≤ yy ∧ yy < y + s) := Iff.rfl

lemma range_split {a b n : Nat} (h1 : a + b ≤ n) :
    List.range n = List.range' 0 a ++ List.range' a b ++ List.range' (a+b) (n - (a+b)) := by
  have e1 : List.range' 0 a ++ List.range' (0 + a) b = List.range' 0 (b + a) :=
    List.range'_append_1 0 a b
  have e2 : List.range' 0 (b + a) ++ List.range' (0 + (b + a)) (n - (a + b)) =
      List.range' 0 (n - (a+b) + (b + a)) := List.range'_append_1 0 (b + a) (n - (a+b))
  rw [List.range_eq_range']
  rw [show (0 + a) = a from by omega] at e1
  rw [show (0 + (b + a)) = a + b from by omega] at e2
  rw [e1, e2]
  congr 1
  omega

lemma countFilled_add_countEmpty (n : Nat) (g : Grid) :
    countFilled n g + countEmpty n g = n * n := by
  unfold countFilled countEmpty
  rw [← sum_map_add]
  have h1 : ∀ yy ∈ List.range n,
      (fun y2 => ((List.range n).filter (fun x2 => !(g y2 x2 == 0))).length +
        ((List.range n).filter (fun x2 => g y2 x2 == 0)).length) yy = (fun _ => n) yy := by
    intro yy _
    have := length_filter_add_length_filter_not (fun x2 => !(g yy x2 == 0)) (List.range n)
    simp only []
    rw [(by funext a; simp : (fun a => !!(g yy a == 0)) = (fun a => (g yy a == 0)))] at this
    rw [this]
    exact List.length_range n
  rw [sum_map_congr h1]
  rw [List.map_const', List.sum_replicate, List.length_range, smul_eq_mul]

lemma countEmpty_eq_zero {n : Nat} {g : Grid}
    (h : ∀ xx, xx < n → ∀ yy, yy < n → g yy xx ≠ 0) : countEmpty n g = 0 := by
  unfold countEmpty
  have h1 : ∀ yy ∈ List.range n,
      (fun y2 => ((List.range n).filter (fun x2 => g y2 x2 == 0)).length) yy =
        (fun _ => 0) yy := by
    intro yy hyy
    simp only []
    rw [List.filter_eq_nil_iff.mpr]
    · rfl
    · intro xx hxx
      simp only [beq_iff_eq]
      exact h xx (List.mem_range.mp hxx) yy (List.mem_range.mp hyy)
  rw [sum_map_congr h1]
  simp

lemma countEmpty_placeBlock {n : Nat} {g : Grid} {x y s : Nat} {v : Int}
    (hv : v ≠ 0) (hcp : canPlaceAt n g x y s = true) :
    countEmpty n (placeBlock g x y s v) + s * s = countEmpty n g := by
  obtain ⟨hxb, hyb, hempty⟩ := canPlaceAt_iff.mp hcp
  have hrow_out : ∀ yy, ¬(y ≤ yy ∧ yy < y + s) →
      ((List.range n).filter (fun xx => placeBlock g x y s v yy xx == 0)).length =
      ((List.range n).filter (fun xx => g yy xx == 0)).length := by
    intro yy hyy
    congr 1
    apply List.filter_congr
    intro xx _
    rw [placeBlock_out _ _ _ _ _ (by omega)]
  have hrow_in : ∀ yy, y ≤ yy → yy < y + s →
      ((List.range n).filter (fun xx => placeBlock g x y s v yy xx == 0)).length + s =
      ((List.range n).filter (fun xx => g yy xx == 0)).length := by
    intro yy h1 h2
    rw [range_split hxb, List.filter_append, List.filter_append, List.filter_append,
      List.filter_append, List.length_append, List.length_append, List.length_append,
      List.length_append]
    have hA : (List.range' 0 x).filter (fun xx => placeBlock g x y s v yy xx == 0) =
        (List.range' 0 x).filter (fun xx => g yy xx == 0) := by
      apply List.filter_congr
      intro xx hxx
      have hx2 := mem_range1.mp hxx
      rw [placeBlock_out _ _ _ _ _ (by omega)]
    have hC : (List.range' (x+s) (n - (x+s))).filter
          (fun xx => placeBlock g x y s v yy xx == 0) =
        (List.range' (x+s) (n - (x+s))).filter (fun xx => g yy xx == 0) := by
      apply List.filter_congr
      intro xx hxx
      have hx2 := mem_range1.mp hxx
      rw [placeBlock_out _ _ _ _ _ (by omega)]
    have hM1 : (List.range' x s).filter (fun xx => placeBlock g x y s v yy xx == 0) = [] := by
      rw [List.filter_eq_nil_iff]
      intro xx hxx
      have hx2 := mem_range1.mp hxx
      rw [placeBlock_in _ _ _ _ _ (by omega)]
      simpa using hv
    have hM2 : (List.range' x s).filter (fun xx => g yy xx == 0) = List.range' x s := by
      rw [List.filter_eq_self]
      intro xx hxx
      have hx2 := mem_range1.mp hxx
      simpa using hempty xx yy (inBlock_mk.mpr ⟨by omega, by omega, by omega, by omega⟩)
    rw [hA, hC, hM1, hM2]
    simp only [List.length_nil, List.length_range']
    omega
  unfold countEmpty
  set R2 : Nat → Nat :=
    fun yy => ((List.range n).filter (fun xx => placeBlock g x y s v yy xx == 0)).length with hR2
  set R1 : Nat → Nat :=
    fun yy => ((List.range n).filter (fun xx => g yy xx == 0)).length with hR1
  rw [range_split hyb, List.map_append, List.map_append, List.sum_append, List.sum_append,
    List.map_append, List.map_append, List.sum_append, List.sum_append]
  have hA2 : ((List.range' 0 y).map R2).sum = ((List.range' 0 y).map R1).sum := by
    apply sum_map_congr
    intro yy hyy
    have hy2 := mem_range1.mp hyy
    exact hrow_out yy (by omega)
  have hC2 : ((List.range' (y+s) (n - (y+s))).map R2).sum =
      ((List.range' (y+s) (n - (y+s))).map R1).sum := by
    apply sum_map_congr
    intro yy hyy
    have hy2 := mem_range1.mp hyy
    exact hrow_out yy (by omega)
  have hM3 : ((List.range' y s).map R2).sum + s * s = ((List.range' y s).map R1).sum := by
    have hs := sum_map_shift (f := R2) (h := R1) (s := s) (l := List.range' y s) ?_
    · rw [← hs, List.length_range']
    · intro yy hyy
      have hy2 := mem_range1.mp hyy
      exact hrow_in yy (by omega) (by omega)
  rw [hA2, hC2, ← hM3]
  omega

/-! ## Structural lemmas about exact completions -/

lemma inBlock_topLeft {q : P3} (h : 1 ≤ q.2.2) : inBlock q q.1 q.2.1 := by
  obtain ⟨x, y, s⟩ := q
  have h2 : 1 ≤ s := h
  show x ≤ x ∧ x < x + s ∧ y ≤ y ∧ y < y + s
  omega

lemma completion_nil_iff {n : Nat} {g : Grid} {counts : Nat → Nat} :
    IsCompletion n g counts [] ↔ (∀ xx, xx < n → ∀ yy, yy < n → g yy xx ≠ 0) := by
  unfold IsCompletion
  constructor
  · rintro ⟨_, _, _, hcov, _⟩ xx hx yy hy hz
    obtain ⟨q, hq, _⟩ := (hcov xx hx yy hy).mp hz
    simp at hq
  · intro h
    refine ⟨List.Pairwise.nil, by simp, List.Pairwise.nil, ?_, by simp⟩
    intro xx hx yy hy
    constructor
    · intro hz; exact absurd hz (h xx hx yy hy)
    · rintro ⟨q, hq, _⟩; simp at hq

lemma completion_head {n : Nat} {g : Grid} {counts : Nat → Nat} {P : List P3} {x y : Nat}
    (hP : IsCompletion n g counts P) (hfe : findNextEmpty n g 0 = some (x, y)) :
    ∃ s P2, P = (x, y, s) :: P2 := by
  obtain ⟨hsort, hbounds, hdisj, hcov, hcnt⟩ := hP
  obtain ⟨_, hyn, hxn, hxy0, hrows, hrow⟩ := findNextEmpty_eq_some.mp hfe
  obtain ⟨q, hqmem, hqin⟩ := (hcov x hxn y hyn).mp hxy0
  obtain ⟨qx, qy, qs⟩ := q
  obtain ⟨hq1, hq2, hq3, hq4⟩ := hbounds (qx, qy, qs) hqmem
  have hq1b : 1 ≤ qs := hq1
  have hq3b : qx + qs ≤ n := hq3
  have hq4b : qy + qs ≤ n := hq4
  obtain ⟨hin1, hin2, hin3, hin4⟩ := inBlock_mk.mp hqin
  have hqx : qx < n := by omega
  have hqy : qy < n := by omega
  have htl : g qy qx = 0 :=
    (hcov qx hqx qy hqy).mpr ⟨(qx, qy, qs), hqmem, inBlock_topLeft hq1b⟩
  have hqy2 : qy = y := by
    by_contra hne
    exact hrows qy (by omega) (by omega) qx hqx htl
  have hqx2 : qx = x := by
    by_contra hne
    apply hrow qx (by omega)
    rw [← hqy2]
    exact htl
  subst hqx2; subst hqy2
  cases P with
  | nil => simp at hqmem
  | cons q0 P2 =>
    rcases List.mem_cons.mp hqmem with heq | hq2mem
    · exact ⟨qs, P2, by rw [heq]⟩
    · exfalso
      have hkey := (List.pairwise_cons.mp hsort).1 (qx, qy, qs) hq2mem
      obtain ⟨q0x, q0y, q0s⟩ := q0
      obtain ⟨h01, h02, h03, h04⟩ := hbounds (q0x, q0y, q0s) (by simp)
      have h01b : 1 ≤ q0s := h01
      have h03b : q0x + q0s ≤ n := h03
      have h04b : q0y + q0s ≤ n := h04
      have h0x : q0x < n := by omega
      have h0y : q0y < n := by omega
      have htl0 : g q0y q0x = 0 :=
        (hcov q0x h0x q0y h0y).mpr ⟨(q0x, q0y, q0s), by simp, inBlock_topLeft h01b⟩
      have hkey2 : q0y * n + q0x < qy * n + qx := hkey
      rcases Nat.lt_trichotomy q0y qy with hc | hc | hc
      · exact hrows q0y (by omega) hc q0x h0x htl0
      · subst hc
        have hxlt : q0x < qx := by omega
        exact hrow q0x hxlt htl0
      · have e1 : (qy + 1) * n ≤ q0y * n := Nat.mul_le_mul_right n (by omega)
        have e2 : (qy + 1) * n = qy * n + n := by ring
        omega

lemma completion_tail {n : Nat} {g : Grid} {counts : Nat → Nat} {x y s : Nat} {P2 : List P3}
    {v : Int} (hv : v ≠ 0)
    (hP : IsCompletion n g counts ((x, y, s) :: P2)) :
    IsCompletion n (placeBlock g x y s v) (decrAt counts s) P2 := by
  obtain ⟨hsort, hbounds, hdisj, hcov, hcnt⟩ := hP
  refine ⟨(List.pairwise_cons.mp hsort).2, fun q hq => hbounds q (by simp [hq]),
    (List.pairwise_cons.mp hdisj).2, ?_, ?_⟩
  · intro xx hx yy hy
    constructor
    · intro hz
      by_cases hin : x ≤ xx ∧ xx < x + s ∧ y ≤ yy ∧ yy < y + s
      · rw [placeBlock_in _ _ _ _ _ hin] at hz
        exact absurd hz hv
      · rw [placeBlock_out _ _ _ _ _ hin] at hz
        obtain ⟨q, hq, hqin⟩ := (hcov xx hx yy hy).mp hz
        rcases List.mem_cons.mp hq with rfl | hq2
        · exact absurd (inBlock_mk.mp hqin) hin
        · exact ⟨q, hq2, hqin⟩
    · rintro ⟨q, hq, hqin⟩
      have hg : g yy xx = 0 := (hcov xx hx yy hy).mpr ⟨q, by simp [hq], hqin⟩
      have hnotin : ¬inBlock (x, y, s) xx yy :=
        fun hc => (List.pairwise_cons.mp hdisj).1 q hq xx yy ⟨hc, hqin⟩
      rw [placeBlock_out _ _ _ _ _ (fun hc => hnotin (inBlock_mk.mpr hc))]
      exact hg
  · intro s2
    have hf := hcnt s2
    by_cases hs2 : s2 = s
    · subst hs2
      rw [show ((x, y, s2) :: P2).filter (fun q => q.2.2 == s2) =
          (x, y, s2) :: P2.filter (fun q => q.2.2 == s2) from by
        rw [List.filter_cons, if_pos (by simp)]] at hf
      rw [List.length_cons] at hf
      unfold decrAt
      rw [if_pos rfl]
      have hf2 : (P2.filter (fun q => q.2.2 == s2)).length + 1 ≤ counts s2 := hf
      omega
    · rw [show ((x, y, s) :: P2).filter (fun q => q.2.2 == s2) =
          P2.filter (fun q => q.2.2 == s2) from by
        rw [List.filter_cons, if_neg (by simp; omega)]] at hf
      unfold decrAt
      rw [if_neg hs2]
      exact hf

lemma completion_cons {n : Nat} {g : Grid} {counts : Nat → Nat} {x y s : Nat} {P2 : List P3}
    {v : Int} (hv : v ≠ 0) (hfe : findNextEmpty n g 0 = some (x, y))
    (hcp : canPlaceAt n g x y s = true) (h1 : 1 ≤ s) (h8 : s ≤ 8) (hcnt : counts s ≠ 0)
    (hP : IsCompletion n (placeBlock g x y s v) (decrAt counts s) P2) :
    IsCompletion n g counts ((x, y, s) :: P2) := by
  obtain ⟨hsort, hbounds, hdisj, hcov, hcnt2⟩ := hP
  obtain ⟨hxb, hyb, hempty⟩ := canPlaceAt_iff.mp hcp
  obtain ⟨_, hyn, hxn, hxy0, hrows, hrow⟩ := findNextEmpty_eq_some.mp hfe
  have htl : ∀ q ∈ P2, g q.2.1 q.1 = 0 ∧ ¬inBlock (x, y, s) q.1 q.2.1 ∧
      rasterKey n (x, y, s) < rasterKey n q := by
    intro q hq
    obtain ⟨hq1, hq2, hq3, hq4⟩ := hbounds q hq
    have hqx : q.1 < n := by omega
    have hqy : q.2.1 < n := by omega
    have htl2 : placeBlock g x y s v q.2.1 q.1 = 0 :=
      (hcov q.1 hqx q.2.1 hqy).mpr ⟨q, hq, inBlock_topLeft hq1⟩
    by_cases hin : x ≤ q.1 ∧ q.1 < x + s ∧ y ≤ q.2.1 ∧ q.2.1 < y + s
    · rw [placeBlock_in _ _ _ _ _ hin] at htl2
      exact absurd htl2 hv
    · rw [placeBlock_out _ _ _ _ _ hin] at htl2
      refine ⟨htl2, fun hc => hin (inBlock_mk.mp hc), ?_⟩
      show y * n + x < q.2.1 * n + q.1
      have hge : ¬(q.2.1 < y) := fun hc => hrows q.2.1 (by omega) hc q.1 hqx htl2
      rcases Nat.lt_or_ge y q.2.1 with hc | hc
      · have e1 : (y + 1) * n ≤ q.2.1 * n := Nat.mul_le_mul_right n (by omega)
        have e2 : (y + 1) * n = y * n + n := by ring
        omega
      · have hyq : q.2.1 = y := by omega
        have hxq : ¬(q.1 < x) := fun hc2 => hrow q.1 hc2 (by rw [← hyq]; exact htl2)
        have hne : q.1 ≠ x := by
          intro hc2
          exact hin ⟨by omega, by omega, by omega, by omega⟩
        rw [hyq]
        omega
  refine ⟨?_, ?_, ?_, ?_, ?_⟩
  · exact List.pairwise_cons.mpr ⟨fun q hq => (htl q hq).2.2, hsort⟩
  · intro q hq
    rcases List.mem_cons.mp hq with rfl | hq2
    · exact ⟨h1, h8, hxb, hyb⟩
    · exact hbounds q hq2
  · refine List.pairwise_cons.mpr ⟨?_, hdisj⟩
    intro q hq xx yy ⟨hinh, hinq⟩
    obtain ⟨hq1, hq2, hq3, hq4⟩ := hbounds q hq
    have hx : xx < n := by
      obtain ⟨a1, a2, a3, a4⟩ := hinq
      omega
    have hy : yy < n := by
      obtain ⟨a1, a2, a3, a4⟩ := hinq
      omega
    have hz : placeBlock g x y s v yy xx = 0 := (hcov xx hx yy hy).mpr ⟨q, hq, hinq⟩
    rw [placeBlock_in _ _ _ _ _ (inBlock_mk.mp hinh)] at hz
    exact hv hz
  · intro xx hx yy hy
    constructor
    · intro hz
      by_cases hin : x ≤ xx ∧ xx < x + s ∧ y ≤ yy ∧ yy < y + s
      · exact ⟨(x, y, s), by simp, inBlock_mk.mpr hin⟩
      · have hz2 : placeBlock g x y s v yy xx = 0 := by
          rw [placeBlock_out _ _ _ _ _ hin]
          exact hz
        obtain ⟨q, hq, hqin⟩ := (hcov xx hx yy hy).mp hz2
        exact ⟨q, by simp [hq], hqin⟩
    · rintro ⟨q, hq, hqin⟩
      rcases List.mem_cons.mp hq with rfl | hq2
      · exact hempty xx yy hqin
      · have hz2 : placeBlock g x y s v yy xx = 0 := (hcov xx hx yy hy).mpr ⟨q, hq2, hqin⟩
        by_cases hin : x ≤ xx ∧ xx < x + s ∧ y ≤ yy ∧ yy < y + s
        · rw [placeBlock_in _ _ _ _ _ hin] at hz2
          exact absurd hz2 hv
        · rw [placeBlock_out _ _ _ _ _ hin] at hz2
          exact hz2
  · intro s2
    have hf := hcnt2 s2
    by_cases hs2 : s2 = s
    · subst hs2
      rw [show ((x, y, s2) :: P2).filter (fun q => q.2.2 == s2) =
          (x, y, s2) :: P2.filter (fun q => q.2.2 == s2) from by
        rw [List.filter_cons, if_pos (by simp)]]
      rw [List.length_cons]
      unfold decrAt at hf
      rw [if_pos rfl] at hf
      have hf2 : (P2.filter (fun q => q.2.2 == s2)).length ≤ counts s2 - 1 := hf
      have hc2 : counts s2 ≠ 0 := hcnt
      show (P2.filter (fun q => q.2.2 == s2)).length + 1 ≤ counts s2
      omega
    · rw [show ((x, y, s) :: P2).filter (fun q => q.2.2 == s2) =
          P2.filter (fun q => q.2.2 == s2) from by
        rw [List.filter_cons, if_neg (by simp; omega)]]
      unfold decrAt at hf
      rw [if_neg hs2] at hf
      exact hf

lemma completion_canPlace {n : Nat} {g : Grid} {counts : Nat → Nat} {x y s : Nat} {P2 : List P3}
    (hP : IsCompletion n g counts ((x, y, s) :: P2)) : canPlaceAt n g x y s = true := by
  obtain ⟨hsort, hbounds, hdisj, hcov, hcnt⟩ := hP
  obtain ⟨hq1, hq2, hq3, hq4⟩ := hbounds (x, y, s) (by simp)
  have hq3b : x + s ≤ n := hq3
  have hq4b : y + s ≤ n := hq4
  rw [canPlaceAt_iff]
  refine ⟨hq3b, hq4b, ?_⟩
  intro xx yy hin
  obtain ⟨a1, a2, a3, a4⟩ := inBlock_mk.mp hin
  exact (hcov xx (by omega) yy (by omega)).mpr ⟨(x, y, s), by simp, hin⟩

lemma completion_countEmpty {n : Nat} : ∀ {P : List P3} {g : Grid} {counts : Nat → Nat},
    IsCompletion n g counts P → countEmpty n g = (P.map (fun q => q.2.2 * q.2.2)).sum := by
  intro P
  induction P with
  | nil =>
    intro g counts h
    rw [countEmpty_eq_zero (completion_nil_iff.mp h)]
    rfl
  | cons q P2 ih =>
    intro g counts h
    obtain ⟨qx, qy, qs⟩ := q
    have hcp : canPlaceAt n g qx qy qs = true := completion_canPlace h
    have htail := completion_tail (v := (1 : Int)) one_ne_zero h
    have hce := countEmpty_placeBlock (v := (1 : Int)) one_ne_zero hcp
    have hihv := ih htail
    simp only [List.map_cons, List.sum_cons]
    have hqs : ((qx, qy, qs) : P3).2.2 * ((qx, qy, qs) : P3).2.2 = qs * qs := rfl
    rw [hqs]
    omega

lemma completion_counts_congr {n : Nat} {g : Grid} {c1 c2 : Nat → Nat} {P : List P3}
    (h12 : ∀ s, 1 ≤ s → s ≤ 8 → c1 s = c2 s) :
    IsCompletion n g c1 P → IsCompletion n g c2 P := by
  rintro ⟨hsort, hbounds, hdisj, hcov, hcnt⟩
  refine ⟨hsort, hbounds, hdisj, hcov, ?_⟩
  intro s
  by_cases hs : 1 ≤ s ∧ s ≤ 8
  · rw [← h12 s hs.1 hs.2]
    exact hcnt s
  · have hnil : P.filter (fun q => q.2.2 == s) = [] := by
      rw [List.filter_eq_nil_iff]
      intro q hq
      obtain ⟨h1, h2, _, _⟩ := hbounds q hq
      simp only [beq_iff_eq]
      omega
    rw [hnil]
    simp

lemma completion_size_pos {n : Nat} {g : Grid} {counts : Nat → Nat} {P : List P3}
    (hP : IsCompletion n g counts P) {s : Nat} (hs : counts s = 0) :
    ∀ q ∈ P, q.2.2 ≠ s := by
  intro q hq hc
  have hcnt := hP.2.2.2.2 s
  have : q ∈ P.filter (fun q2 => q2.2.2 == s) := by
    rw [List.mem_filter]
    exact ⟨hq, by simp [hc]⟩
  have hlen : 1 ≤ (P.filter (fun q2 => q2.2.2 == s)).length :=
    List.length_pos.mpr (List.ne_nil_of_mem this)
  omega

/-! ## Pool bookkeeping lemmas -/

lemma getLastD_mem {l : List Nat} (h : l ≠ []) : l.getLastD 0 ∈ l := by
  have h2 : l.getLastD 0 = l.getLast h := by
    rw [List.getLastD_eq_getLast?, List.getLast?_eq_getLast l h]
    rfl
  rw [h2]
  exact List.getLast_mem h

lemma getLastD_not_mem_dropLast {l : List Nat} (h : l ≠ []) (hnd : l.Nodup) :
    l.getLastD 0 ∉ l.dropLast := by
  intro hc
  have hsplit : l.dropLast ++ [l.getLastD 0] = l := pool_restore h
  rw [← hsplit] at hnd
  have := (List.nodup_append.mp hnd).2.2
  exact this  hc (by simp)

lemma poolLens_drop (pools : Nat → List Nat) (s : Nat) :
    poolLens (updPools pools s (pools s).dropLast) = decrAt (poolLens pools) s := by
  funext s2
  unfold poolLens decrAt updPools
  by_cases h : s2 = s
  · subst h
    rw [if_pos rfl, if_pos rfl, List.length_dropLast]
  · rw [if_neg h, if_neg h]

lemma PoolsInv_drop {pools : Nat → List Nat} (h : PoolsInv pools) (s : Nat) :
    PoolsInv (updPools pools s (pools s).dropLast) := by
  refine ⟨?_, ?_, ?_, ?_⟩
  · intro s2
    by_cases h2 : s2 = s
    · subst h2
      rw [updPools_at]
      exact (h.nodup s2).sublist (List.dropLast_sublist _)
    · rw [updPools_ne _ _ _ h2]
      exact h.nodup s2
  · intro s1 s2 hne pid h1 h2
    have m1 : pid ∈ pools s1 := by
      by_cases hc : s1 = s
      · subst hc
        rw [updPools_at] at h1
        exact List.dropLast_subset _ h1
      · rw [updPools_ne _ _ _ hc] at h1
        exact h1
    have m2 : pid ∈ pools s2 := by
      by_cases hc : s2 = s
      · subst hc
        rw [updPools_at] at h2
        exact List.dropLast_subset _ h2
      · rw [updPools_ne _ _ _ hc] at h2
        exact h2
    exact h.disj s1 s2 hne pid m1 m2
  · intro s2 pid h2
    have m2 : pid ∈ pools s2 := by
      by_cases hc : s2 = s
      · subst hc
        rw [updPools_at] at h2
        exact List.dropLast_subset _ h2
      · rw [updPools_ne _ _ _ hc] at h2
        exact h2
    exact h.pos s2 pid m2
  · intro s2 h2
    by_cases hc : s2 = s
    · subst hc
      rw [updPools_at] at h2
      apply h.sized s2
      intro hnil
      rw [hnil] at h2
      simp at h2
    · rw [updPools_ne _ _ _ hc] at h2
      exact h.sized s2 h2

lemma rows_filled_of_first {n : Nat} {g : Grid} {x y : Nat}
    (hfe : findNextEmpty n g 0 = some (x, y)) :
    ∀ yy, yy < y → ∀ xx, xx < n → g yy xx ≠ 0 := by
  obtain ⟨_, _, _, _, hrows, _⟩ := findNextEmpty_eq_some.mp hfe
  intro yy hy xx hx
  exact hrows yy (by omega) hy xx hx

/-! ## Soundness of the exact-completion search -/

lemma SoundSuccess_congr {n : Nat} {st st2 res : SState} (hc : st2.cells = st.cells)
    (hp : st2.pools = st.pools) (hl : st2.placements = st.placements) :
    SoundSuccess n st2 res → SoundSuccess n st res := by
  unfold SoundSuccess
  rw [hc, hp, hl]
  exact id

lemma trySizes_sound (n : Nat) (cancel : Nat → Bool) (recur : Nat → SState → Bool × SState)
    (x y : Nat)
    (hrecsound : ∀ st2, (recur y st2).1 = true → PoolsInv st2.pools →
      (∀ yy, yy < y → ∀ xx, xx < n → st2.cells yy xx ≠ 0) →
      SoundSuccess n st2 (recur y st2).2)
    (hrecrestore : ∀ yy st2, (recur yy st2).1 = false →
      ((recur yy st2).2.cells = st2.cells ∧ (recur yy st2).2.pools = st2.pools ∧
        (recur yy st2).2.placements = st2.placements)) :
    ∀ (l : List Nat) (st : SState),
      (trySizes n cancel recur x y l st).1 = true →
      PoolsInv st.pools →
      findNextEmpty n st.cells 0 = some (x, y) →
      SoundSuccess n st (trySizes n cancel recur x y l st).2 := by
  intro l
  induction l with
  | nil =>
    intro st htrue _ _
    simp [trySizes] at htrue
  | cons s rest ih =>
    intro st htrue hinv hfe
    rcases hc : cancel st.t with _ | _
    · rcases hemp : ((bumpT st).pools s).isEmpty with _ | _
      · rcases hcp : canPlaceAt n (bumpT st).cells x y s with _ | _
        · -- cannot place here: continue with the remaining sizes
          have hres : trySizes n cancel recur x y (s :: rest) st =
              trySizes n cancel recur x y rest (bumpT st) := by
            simp only [trySizes, hc, Bool.false_eq_true, if_false, hemp, hcp, Bool.not_false,
              if_true]
          rw [hres] at htrue ⊢
          exact ih (bumpT st) htrue hinv hfe
        · -- place a piece of size s at (x, y)
          have hpool : (bumpT st).pools s ≠ [] := by
            intro hnil
            rw [hnil] at hemp
            simp at hemp
          set st1 := bumpT st with hst1
          set pool := st1.pools s with hpooldef
          set pid := pool.getLastD 0 with hpid
          set st2 : SState :=
            { st1 with
              cells := placeBlock st1.cells x y s (pid : Int),
              pools := updPools st1.pools s pool.dropLast,
              placements := st1.placements ++ [⟨pid, x, y, s⟩] } with hst2
          have hres : trySizes n cancel recur x y (s :: rest) st =
              (if (recur y st2).1 then (true, (recur y st2).2)
               else
                 (let st3 : SState :=
                    { (recur y st2).2 with
                      cells := placeBlock (recur y st2).2.cells x y s 0,
                      pools := updPools (recur y st2).2.pools s
                        ((recur y st2).2.pools s ++ [pid]),
                      placements := (recur y st2).2.placements.dropLast }
                  if cancel st3.t then (false, bumpT st3)
                  else trySizes n cancel recur x y rest (bumpT st3))) := by
            simp only [trySizes, hc, Bool.false_eq_true, if_false, hemp, hcp, Bool.not_true,
              if_true, ← hst1, ← hpooldef, ← hpid, ← hst2]
          have hbp : st1.pools = st.pools := rfl
          have hbc : st1.cells = st.cells := rfl
          have hbl : st1.placements = st.placements := rfl
          have hs18 := hinv.sized s (by rw [← hbp]; exact hpool)
          have hpidmem : pid ∈ st.pools s := by
            rw [← hbp]
            exact getLastD_mem hpool
          have hpidpos : 1 ≤ pid := hinv.pos s pid hpidmem
          have hpidz : (pid : Int) ≠ 0 := by
            simp only [ne_eq, Int.natCast_eq_zero]
            omega
          rcases hr1 : (recur y st2).1 with _ | _
          · -- this size failed below; the undo restores the state, continue
            obtain ⟨hcells2, hpools2, hpl2⟩ := hrecrestore y st2 hr1
            have hcells3 : placeBlock (recur y st2).2.cells x y s 0 = st.cells := by
              rw [hcells2]
              show placeBlock (placeBlock st1.cells x y s (pid : Int)) x y s 0 = st.cells
              rw [placeBlock_cancel hcp]
              exact hbc
            have hpools3 : updPools (recur y st2).2.pools s ((recur y st2).2.pools s ++ [pid]) =
                st.pools := by
              rw [hpools2]
              show updPools (updPools st1.pools s pool.dropLast) s
                (updPools st1.pools s pool.dropLast s ++ [pid]) = st.pools
              rw [updPools_at]
              have hrest : pool.dropLast ++ [pid] = pool := pool_restore hpool
              funext s2
              by_cases hs2 : s2 = s
              · subst hs2
                rw [updPools_at, hrest]
                rfl
              · rw [updPools_ne _ _ _ hs2, updPools_ne _ _ _ hs2]
                rfl
            have hpl3 : (recur y st2).2.placements.dropLast = st.placements := by
              rw [hpl2]
              show (st1.placements ++ [(⟨pid, x, y, s⟩ : Placement)]).dropLast = st.placements
              rw [List.dropLast_concat]
              exact hbl
            rw [hres] at htrue ⊢
            rw [if_neg (by simp [hr1])] at htrue ⊢
            rcases hc3 : cancel ({ (recur y st2).2 with
                cells := placeBlock (recur y st2).2.cells x y s 0,
                pools := updPools (recur y st2).2.pools s ((recur y st2).2.pools s ++ [pid]),
                placements := (recur y st2).2.placements.dropLast } : SState).t with _ | _
            · rw [if_neg (by simp [hc3])] at htrue ⊢
              have hsub := ih _ htrue (by
                  show PoolsInv (updPools (recur y st2).2.pools s
                    ((recur y st2).2.pools s ++ [pid]))
                  rw [hpools3]
                  exact hinv)
                (by
                  show findNextEmpty n (placeBlock (recur y st2).2.cells x y s 0) 0 =
                    some (x, y)
                  rw [hcells3]
                  exact hfe)
              exact SoundSuccess_congr hcells3 hpools3 hpl3 hsub
            · rw [if_pos (by simp [hc3])] at htrue
              simp at htrue
          · -- the recursion below succeeded
            rw [hres] at htrue ⊢
            rw [if_pos (by simp [hr1])] at htrue ⊢
            have hrows2 : ∀ yy, yy < y → ∀ xx, xx < n → st2.cells yy xx ≠ 0 := by
              intro yy hy xx hx
              show placeBlock st1.cells x y s (pid : Int) yy xx ≠ 0
              rw [placeBlock_out _ _ _ _ _ (by omega), hbc]
              exact rows_filled_of_first hfe yy hy xx hx
            have hinv2 : PoolsInv st2.pools := by
              show PoolsInv (updPools st1.pools s pool.dropLast)
              rw [hbp, hpooldef, hbp]
              exact PoolsInv_drop hinv s
            obtain ⟨newPl2, hp2, hc2, hfull2, hcompl2, hnd2, hmem2⟩ :=
              hrecsound st2 hr1 hinv2 hrows2
            have hpoolss : st2.pools = updPools st.pools s ((st.pools s).dropLast) := by
              show updPools st1.pools s pool.dropLast = _
              rw [hpooldef, hbp]
            refine ⟨⟨pid, x, y, s⟩ :: newPl2, ?_, ?_, ?_, ?_, ?_, ?_⟩
            · rw [hp2]
              show st1.placements ++ [(⟨pid, x, y, s⟩ : Placement)] ++ newPl2 = _
              rw [hbl, List.append_assoc]
              rfl
            · rw [hc2]
              rfl
            · exact hfull2
            · show IsCompletion n st.cells (poolLens st.pools)
                ((x, y, s) :: newPl2.map toP3)
              have hcnt0 : poolLens st.pools s ≠ 0 := by
                unfold poolLens
                intro hz
                exact hpool (List.eq_nil_of_length_eq_zero hz)
              refine completion_cons hpidz hfe (by rw [← hbc]; exact hcp) hs18.1 hs18.2
                hcnt0 ?_
              have hcompl3 : IsCompletion n st2.cells (poolLens st2.pools)
                  (newPl2.map toP3) := hcompl2
              rw [hpoolss, poolLens_drop] at hcompl3
              exact hcompl3
            · rw [List.map_cons, List.nodup_cons]
              refine ⟨?_, hnd2⟩
              intro hcmem
              obtain ⟨q, hq, hqid⟩ := List.mem_map.mp hcmem
              have hqpool := (hmem2 q hq).1
              rw [hpoolss] at hqpool
              by_cases hqs : q.size = s
              · rw [hqs, updPools_at] at hqpool
                rw [hqid] at hqpool
                exact absurd hqpool (getLastD_not_mem_dropLast hpool (hinv.nodup s))
              · rw [updPools_ne _ _ _ hqs] at hqpool
                rw [hqid] at hqpool
                exact hinv.disj s q.size (fun hccc => hqs hccc.symm) pid hpidmem hqpool
            · intro q hq
              rcases List.mem_cons.mp hq with rfl | hq2
              · exact ⟨hpidmem, hpidpos⟩
              · have hqpool := (hmem2 q hq2).1
                rw [hpoolss] at hqpool
                refine ⟨?_, (hmem2 q hq2).2⟩
                by_cases hqs : q.size = s
                · rw [hqs] at hqpool ⊢
                  rw [updPools_at] at hqpool
                  exact List.dropLast_subset _ hqpool
                · rw [updPools_ne _ _ _ hqs] at hqpool
                  exact hqpool
      · -- pool for this size is empty: continue with the remaining sizes
        have hres : trySizes n cancel recur x y (s :: rest) st =
            trySizes n cancel recur x y rest (bumpT st) := by
          simp only [trySizes, hc, Bool.false_eq_true, if_false, hemp, if_true]
        rw [hres] at htrue ⊢
        exact ih (bumpT st) htrue hinv hfe
    · -- cancelled: the result is false, contradiction
      have : trySizes n cancel recur x y (s :: rest) st = (false, bumpT st) := by
        simp only [trySizes, hc, if_true]
      rw [this] at htrue
      simp at htrue

lemma backtrack_sound (n : Nat) (orders : Nat → List Nat) (cancel : Nat → Bool) :
    ∀ (fuel depth r : Nat) (st : SState),
      (backtrack n orders cancel fuel depth r st).1 = true →
      PoolsInv st.pools →
      (∀ yy, yy < r → ∀ xx, xx < n → st.cells yy xx ≠ 0) →
      SoundSuccess n st (backtrack n orders cancel fuel depth r st).2 := by
  intro fuel
  induction fuel with
  | zero =>
    intro depth r st htrue _ _
    simp [backtrack] at htrue
  | succ fuel ih =>
    intro depth r st htrue hinv hrows
    rcases hc : cancel st.t with _ | _
    · rcases hf : findNextEmpty n (bumpT st).cells r with _ | ⟨x, y⟩
      · -- grid already full: success with no new placements
        have hres : backtrack n orders cancel (fuel+1) depth r st = (true, bumpT st) := by
          simp only [backtrack, hc, Bool.false_eq_true, if_false, hf]
        rw [hres]
        have hfull : ∀ xx, xx < n → ∀ yy, yy < n → st.cells yy xx ≠ 0 := by
          intro xx hx yy hy
          rcases Nat.lt_or_ge yy r with hyr | hyr
          · exact hrows yy hyr xx hx
          · exact findNextEmpty_eq_none.mp hf yy hyr hy xx hx
        refine ⟨[], by simp [bumpT], rfl, hfull, completion_nil_iff.mpr hfull, by simp, by simp⟩
      · have hres : backtrack n orders cancel (fuel+1) depth r st =
            trySizes n cancel (fun yy stt => backtrack n orders cancel fuel (depth+1) yy stt)
              x y (orders depth) (bumpT st) := by
          simp only [backtrack, hc, Bool.false_eq_true, if_false, hf]
        rw [hres] at htrue ⊢
        have hfe0 : findNextEmpty n (bumpT st).cells 0 = some (x, y) := by
          have := findNextEmpty_skip_rows (g := (bumpT st).cells) (r := r) hrows
          rw [← this]
          exact hf
        exact trySizes_sound n cancel _ x y
          (fun st2 h1 h2 h3 => ih (depth+1) y st2 h1 h2 h3)
          (fun yy st2 h1 => backtrack_restore n orders cancel fuel (depth+1) yy st2 h1)
          (orders depth) (bumpT st) htrue hinv hfe0
    · have : backtrack n orders cancel (fuel+1) depth r st = (false, bumpT st) := by
        simp only [backtrack, hc, if_true]
      rw [this] at htrue
      simp at htrue

/-! ## Completeness of the exact-completion search -/

lemma sum_map_decr {f : Nat → Nat} {s : Nat} (hf : 1 ≤ f s) : ∀ (L : List Nat),
    L.Nodup → s ∈ L → (L.map (decrAt f s)).sum + 1 = (L.map f).sum := by
  intro L
  induction L with
  | nil => intro _ hm; simp at hm
  | cons a t ih =>
    intro hnd hm
    simp only [List.map_cons, List.sum_cons]
    rcases List.mem_cons.mp hm with heq | hm2
    · have hrest : (t.map (decrAt f s)).sum = (t.map f).sum := by
        apply sum_map_congr
        intro b hb
        unfold decrAt
        rw [if_neg]
        intro hc
        rw [hc, heq] at hb
        exact (List.nodup_cons.mp hnd).1 hb
      have hda : decrAt f s a = f a - 1 := by
        unfold decrAt
        rw [if_pos heq.symm]
      have hfa : f a = f s := by rw [heq]
      rw [hrest, hda]
      omega
    · have hha : decrAt f s a = f a := by
        unfold decrAt
        rw [if_neg]
        intro hc
        exact (List.nodup_cons.mp hnd).1 (by rw [hc]; exact hm2)
      rw [hha]
      have := ih (List.nodup_cons.mp hnd).2 hm2
      omega

lemma countsTotal_decr {f : Nat → Nat} {s : Nat} (h1 : 1 ≤ s) (h8 : s ≤ 8) (hf : 1 ≤ f s) :
    countsTotal (decrAt f s) + 1 = countsTotal f := by
  unfold countsTotal
  have e1 : ∀ (g : Nat → Nat), (List.range 8).map (fun i => g (i+1)) =
      ((List.range 8).map (· + 1)).map g := by
    intro g
    rw [List.map_map]
    rfl
  rw [e1, e1]
  apply sum_map_decr hf
  · exact List.Nodup.map (add_left_injective 1) (List.nodup_range 8)
  · rw [List.mem_map]
    exact ⟨s - 1, by rw [List.mem_range]; omega, by omega⟩

lemma counts_head_pos {n : Nat} {g : Grid} {counts : Nat → Nat} {x y s : Nat} {P2 : List P3}
    (hP : IsCompletion n g counts ((x, y, s) :: P2)) : 1 ≤ counts s := by
  have hcnt : (((x, y, s) :: P2).filter (fun q => q.2.2 == s)).length ≤ counts s :=
    hP.2.2.2.2 s
  rw [show ((x, y, s) :: P2).filter (fun q => q.2.2 == s) =
      (x, y, s) :: P2.filter (fun q => q.2.2 == s) from by
    rw [List.filter_cons, if_pos (by simp)]] at hcnt
  rw [List.length_cons] at hcnt
  omega

lemma trySizes_complete (n : Nat) (cancel : Nat → Bool) (hcf : ∀ t, cancel t = false)
    (recur : Nat → SState → Bool × SState) (pred : Nat → Prop) (fuel : Nat) (x y s0 : Nat)
    (P2 : List P3)
    (hreccomplete : ∀ st2 P3, PoolsInv st2.pools →
      (∀ s2, st2.pools s2 ≠ [] → pred s2) →
      countsTotal (poolLens st2.pools) + 1 ≤ fuel →
      (∀ yy, yy < y → ∀ xx, xx < n → st2.cells yy xx ≠ 0) →
      IsCompletion n st2.cells (poolLens st2.pools) P3 →
      (recur y st2).1 = true)
    (hrecrestore : ∀ yy st2, (recur yy st2).1 = false →
      ((recur yy st2).2.cells = st2.cells ∧ (recur yy st2).2.pools = st2.pools ∧
        (recur yy st2).2.placements = st2.placements)) :
    ∀ (l : List Nat) (st : SState),
      PoolsInv st.pools →
      (∀ s2, st.pools s2 ≠ [] → pred s2) →
      countsTotal (poolLens st.pools) ≤ fuel →
      findNextEmpty n st.cells 0 = some (x, y) →
      IsCompletion n st.cells (poolLens st.pools) ((x, y, s0) :: P2) →
      s0 ∈ l →
      (trySizes n cancel recur x y l st).1 = true := by
  intro l
  induction l with
  | nil =>
    intro st _ _ _ _ _ hmem
    simp at hmem
  | cons s rest ih =>
    intro st hinv hpred hfuel hfe hP hmem
    have hc : cancel st.t = false := hcf st.t
    have hbp : (bumpT st).pools = st.pools := rfl
    have hbc : (bumpT st).cells = st.cells := rfl
    -- facts about the size s0 demanded by the completion
    have hcnt0 : 1 ≤ poolLens st.pools s0 := counts_head_pos hP
    have hpool0 : st.pools s0 ≠ [] := by
      intro hnil
      unfold poolLens at hcnt0
      rw [hnil] at hcnt0
      simp at hcnt0
    have hcp0 : canPlaceAt n st.cells x y s0 = true := completion_canPlace hP
    rcases hemp : ((bumpT st).pools s).isEmpty with _ | _
    · rcases hcp : canPlaceAt n (bumpT st).cells x y s with _ | _
      · -- head cannot be placed: it cannot be s0, continue
        have hres : trySizes n cancel recur x y (s :: rest) st =
            trySizes n cancel recur x y rest (bumpT st) := by
          simp only [trySizes, hc, Bool.false_eq_true, if_false, hemp, hcp, Bool.not_false,
            if_true]
        have hne : s ≠ s0 := by
          intro hceq
          subst hceq
          rw [hbc] at hcp
          rw [hcp0] at hcp
          simp at hcp
        rw [hres]
        exact ih (bumpT st) hinv hpred hfuel hfe hP
          (by rcases List.mem_cons.mp hmem with hx0 | hm2
              · exact absurd hx0.symm hne
              · exact hm2)
      · -- head is placed
        have hpool : (bumpT st).pools s ≠ [] := by
          intro hnil
          rw [hnil] at hemp
          simp at hemp
        set st1 := bumpT st with hst1
        set pool := st1.pools s with hpooldef
        set pid := pool.getLastD 0 with hpid
        set st2 : SState :=
          { st1 with
            cells := placeBlock st1.cells x y s (pid : Int),
            pools := updPools st1.pools s pool.dropLast,
            placements := st1.placements ++ [⟨pid, x, y, s⟩] } with hst2
        have hres : trySizes n cancel recur x y (s :: rest) st =
            (if (recur y st2).1 then (true, (recur y st2).2)
             else
               (let st3 : SState :=
                  { (recur y st2).2 with
                    cells := placeBlock (recur y st2).2.cells x y s 0,
                    pools := updPools (recur y st2).2.pools s
                      ((recur y st2).2.pools s ++ [pid]),
                    placements := (recur y st2).2.placements.dropLast }
                if cancel st3.t then (false, bumpT st3)
                else trySizes n cancel recur x y rest (bumpT st3))) := by
          simp only [trySizes, hc, Bool.false_eq_true, if_false, hemp, hcp, Bool.not_true,
            if_true, ← hst1, ← hpooldef, ← hpid, ← hst2]
        have hs18 := hinv.sized s (by rw [← hbp]; exact hpool)
        have hpidmem : pid ∈ st.pools s := by
          rw [← hbp]
          exact getLastD_mem hpool
        have hpidpos : 1 ≤ pid := hinv.pos s pid hpidmem
        have hpidz : (pid : Int) ≠ 0 := by
          simp only [ne_eq, Int.natCast_eq_zero]
          omega
        have hpoolss : st2.pools = updPools st.pools s ((st.pools s).dropLast) := by
          show updPools st1.pools s pool.dropLast = _
          rw [hpooldef, hbp]
        have hinv2 : PoolsInv st2.pools := by
          rw [hpoolss]
          exact PoolsInv_drop hinv s
        have hpred2 : ∀ s2, st2.pools s2 ≠ [] → pred s2 := by
          intro s2 hne
          apply hpred s2
          rw [hpoolss] at hne
          by_cases hs2 : s2 = s
          · subst hs2
            rw [updPools_at] at hne
            intro hnil
            rw [hnil] at hne
            simp at hne
          · rw [updPools_ne _ _ _ hs2] at hne
            exact hne
        rcases hr1 : (recur y st2).1 with _ | _
        · -- head try failed: it cannot be s0, undo and continue
          have hne : s ≠ s0 := by
            intro hceq
            subst hceq
            -- the recursion from the placed state must succeed on the tail completion
            have htail : IsCompletion n st2.cells (poolLens st2.pools) P2 := by
              have h2 := completion_tail (v := (pid : Int)) hpidz hP
              rw [hpoolss, poolLens_drop]
              exact h2
            have hfuel2 : countsTotal (poolLens st2.pools) + 1 ≤ fuel := by
              rw [hpoolss, poolLens_drop]
              rw [countsTotal_decr hs18.1 hs18.2 (by
                show 1 ≤ poolLens st.pools s
                exact hcnt0)]
              exact hfuel
            have hrows2 : ∀ yy, yy < y → ∀ xx, xx < n → st2.cells yy xx ≠ 0 := by
              intro yy hy xx hx
              show placeBlock st1.cells x y s (pid : Int) yy xx ≠ 0
              rw [placeBlock_out _ _ _ _ _ (by omega), hbc]
              exact rows_filled_of_first hfe yy hy xx hx
            have := hreccomplete st2 P2 hinv2 hpred2 hfuel2 hrows2 htail
            rw [this] at hr1
            simp at hr1
          obtain ⟨hcells2, hpools2, hpl2⟩ := hrecrestore y st2 hr1
          have hcells3 : placeBlock (recur y st2).2.cells x y s 0 = st.cells := by
            rw [hcells2]
            show placeBlock (placeBlock st1.cells x y s (pid : Int)) x y s 0 = st.cells
            rw [placeBlock_cancel hcp]
            exact hbc
          have hpools3 : updPools (recur y st2).2.pools s ((recur y st2).2.pools s ++ [pid]) =
              st.pools := by
            rw [hpools2]
            show updPools (updPools st1.pools s pool.dropLast) s
              (updPools st1.pools s pool.dropLast s ++ [pid]) = st.pools
            rw [updPools_at]
            have hrest2 : pool.dropLast ++ [pid] = pool := pool_restore hpool
            funext s2
            by_cases hs2 : s2 = s
            · subst hs2
              rw [updPools_at, hrest2]
              rfl
            · rw [updPools_ne _ _ _ hs2, updPools_ne _ _ _ hs2]
              rfl
          rw [hres]
          rw [if_neg (by simp [hr1])]
          have hc3f : cancel ({ (recur y st2).2 with
              cells := placeBlock (recur y st2).2.cells x y s 0,
              pools := updPools (recur y st2).2.pools s ((recur y st2).2.pools s ++ [pid]),
              placements := (recur y st2).2.placements.dropLast } : SState).t = false :=
            hcf _
          rw [if_neg (by simp [hc3f])]
          apply ih
          · show PoolsInv (updPools (recur y st2).2.pools s ((recur y st2).2.pools s ++ [pid]))
            rw [hpools3]
            exact hinv
          · show ∀ s2, updPools (recur y st2).2.pools s ((recur y st2).2.pools s ++ [pid]) s2 ≠
                [] → pred s2
            rw [hpools3]
            exact hpred
          · show countsTotal (poolLens (updPools (recur y st2).2.pools s
              ((recur y st2).2.pools s ++ [pid]))) ≤ fuel
            rw [hpools3]
            exact hfuel
          · show findNextEmpty n (placeBlock (recur y st2).2.cells x y s 0) 0 = some (x, y)
            rw [hcells3]
            exact hfe
          · show IsCompletion n (placeBlock (recur y st2).2.cells x y s 0)
              (poolLens (updPools (recur y st2).2.pools s
                ((recur y st2).2.pools s ++ [pid]))) ((x, y, s0) :: P2)
            rw [hcells3, hpools3]
            exact hP
          · rcases List.mem_cons.mp hmem with hx0 | hm2
            · exact absurd hx0.symm hne
            · exact hm2
        · -- head try succeeded: the whole loop returns true
          rw [hres]
          rw [if_pos (by simp [hr1])]
    · -- pool for the head size is empty: it cannot be s0, continue
      have hres : trySizes n cancel recur x y (s :: rest) st =
          trySizes n cancel recur x y rest (bumpT st) := by
        simp only [trySizes, hc, Bool.false_eq_true, if_false, hemp, if_true]
      have hne : s ≠ s0 := by
        intro hceq
        subst hceq
        rw [hbp] at hemp
        rw [List.isEmpty_iff] at hemp
        exact hpool0 hemp
      rw [hres]
      exact ih (bumpT st) hinv hpred hfuel hfe hP
        (by rcases List.mem_cons.mp hmem with hx0 | hm2
            · exact absurd hx0.symm hne
            · exact hm2)

lemma backtrack_complete (n : Nat) (orders : Nat → List Nat) (cancel : Nat → Bool)
    (hcf : ∀ t, cancel t = false) :
    ∀ (fuel depth r : Nat) (st : SState) (P : List P3),
      countsTotal (poolLens st.pools) + 1 ≤ fuel →
      PoolsInv st.pools →
      (∀ s, st.pools s ≠ [] → ∀ d, s ∈ orders d) →
      (∀ yy, yy < r → ∀ xx, xx < n → st.cells yy xx ≠ 0) →
      IsCompletion n st.cells (poolLens st.pools) P →
      (backtrack n orders cancel fuel depth r st).1 = true := by
  intro fuel
  induction fuel with
  | zero =>
    intro depth r st P hfuel _ _ _ _
    omega
  | succ fuel ih =>
    intro depth r st P hfuel hinv hpred hrows hP
    have hc : cancel st.t = false := hcf st.t
    rcases hf : findNextEmpty n (bumpT st).cells r with _ | ⟨x, y⟩
    · have hres : backtrack n orders cancel (fuel+1) depth r st = (true, bumpT st) := by
        simp only [backtrack, hc, Bool.false_eq_true, if_false, hf]
      rw [hres]
    · have hres : backtrack n orders cancel (fuel+1) depth r st =
          trySizes n cancel (fun yy stt => backtrack n orders cancel fuel (depth+1) yy stt)
            x y (orders depth) (bumpT st) := by
        simp only [backtrack, hc, Bool.false_eq_true, if_false, hf]
      rw [hres]
      have hfe0 : findNextEmpty n (bumpT st).cells 0 = some (x, y) := by
        have := findNextEmpty_skip_rows (g := (bumpT st).cells) (r := r) hrows
        rw [← this]
        exact hf
      obtain ⟨s0, P2, hPeq⟩ := completion_head hP hfe0
      rw [hPeq] at hP
      have hs0mem : s0 ∈ orders depth := by
        have hcnt0 : 1 ≤ poolLens st.pools s0 := counts_head_pos hP
        have hpool0 : st.pools s0 ≠ [] := by
          intro hnil
          unfold poolLens at hcnt0
          rw [hnil] at hcnt0
          simp at hcnt0
        exact hpred s0 hpool0 depth
      exact trySizes_complete n cancel hcf _ (fun s => ∀ d, s ∈ orders d) fuel x y s0 P2
        (fun st2 P3 h1 h2 h3 h4 h5 => ih (depth+1) y st2 P3 h3 h1
          (fun s2 hne => h2 s2 hne) h4 h5)
        (fun yy st2 h1 => backtrack_restore n orders cancel fuel (depth+1) yy st2 h1)
        (orders depth) (bumpT st) hinv hpred
        (by show countsTotal (poolLens st.pools) ≤ fuel; omega) hfe0 hP hs0mem

/-! ## Applying a found solution to the caller's state -/

lemma find_by_id : ∀ {inv : List Piece}, (inv.map Piece.id).Nodup → ∀ {p : Piece}, p ∈ inv →
    inv.find? (fun p2 => p2.id == p.id) = some p := by
  intro inv
  induction inv with
  | nil => intro _ p hp; simp at hp
  | cons a t ih =>
    intro hnd p hp
    rcases List.mem_cons.mp hp with rfl | hp2
    · rw [List.find?_cons_of_pos _ (by simp)]
    · by_cases hid : a.id = p.id
      · exfalso
        have hmem : p.id ∈ t.map Piece.id := List.mem_map.mpr ⟨p, hp2, rfl⟩
        rw [List.map_cons, List.nodup_cons] at hnd
        exact hnd.1 (by rw [hid]; exact hmem)
      · rw [List.find?_cons_of_neg _ (by simp [hid])]
        exact ih (by rw [List.map_cons, List.nodup_cons] at hnd; exact hnd.2) hp2

lemma setFirstPiece_map_id : ∀ (inv : List Piece) (pid : Nat) (q : Piece), q.id = pid →
    (setFirstPiece inv pid q).map Piece.id = inv.map Piece.id := by
  intro inv
  induction inv with
  | nil => intro pid q _; rfl
  | cons a t ih =>
    intro pid q hq
    unfold setFirstPiece
    by_cases ha : a.id = pid
    · rw [if_pos ha]
      simp only [List.map_cons]
      rw [hq, ha]
    · rw [if_neg ha]
      simp only [List.map_cons]
      rw [ih pid q hq]

lemma mem_setFirstPiece_of_ne : ∀ {inv : List Piece} {pid : Nat} {q p : Piece},
    p ∈ inv → p.id ≠ pid → p ∈ setFirstPiece inv pid q := by
  intro inv
  induction inv with
  | nil => intro pid q p hp _; simp at hp
  | cons a t ih =>
    intro pid q p hp hne
    unfold setFirstPiece
    by_cases ha : a.id = pid
    · rw [if_pos ha]
      rcases List.mem_cons.mp hp with rfl | hp2
      · exact absurd ha hne
      · exact List.mem_cons_of_mem _ hp2
    · rw [if_neg ha]
      rcases List.mem_cons.mp hp with rfl | hp2
      · exact List.mem_cons_self _ _
      · exact List.mem_cons_of_mem _ (ih hp2 hne)

lemma applyPlacements_spec : ∀ (pls : List Placement) (state : GState),
    (state.inventory.map Piece.id).Nodup →
    (pls.map Placement.pieceId).Nodup →
    (∀ q ∈ pls, ∃ p ∈ state.inventory, p.id = q.pieceId ∧ p.placed = false ∧ p.size = q.size) →
    ((applyPlacements state pls).1.board.cells = applyPl state.board.cells pls ∧
     (applyPlacements state pls).1.board.filled =
       state.board.filled + (pls.map (fun q => q.size * q.size)).sum ∧
     (applyPlacements state pls).1.board.size = state.board.size ∧
     (applyPlacements state pls).2.length = pls.length) := by
  intro pls
  induction pls with
  | nil =>
    intro state _ _ _
    exact ⟨rfl, by simp [applyPlacements], rfl, rfl⟩
  | cons q rest ih =>
    intro state hndinv hndpl hfind
    obtain ⟨p, hpinv, hpid, hpplaced, hpsize⟩ := hfind q (by simp)
    have hfound : state.inventory.find? (fun p2 => p2.id == q.pieceId) = some p := by
      rw [← hpid]
      exact find_by_id hndinv hpinv
    set piece2 : Piece := { p with x := q.x, y := q.y, placed := true } with hpiece2
    set state2 : GState :=
      { state with
        inventory := setFirstPiece state.inventory q.pieceId piece2,
        board := state.board.place piece2 q.x q.y } with hstate2
    have hres : applyPlacements state (q :: rest) =
        ((applyPlacements state2 rest).1,
         ⟨q.pieceId, 0, 0, false, q.x, q.y, true⟩ :: (applyPlacements state2 rest).2) := by
      simp only [applyPlacements, hfound, hpplaced, Bool.false_eq_true, if_false, ← hpiece2,
        ← hstate2]
    have hnd2 : (state2.inventory.map Piece.id).Nodup := by
      show ((setFirstPiece state.inventory q.pieceId piece2).map Piece.id).Nodup
      rw [setFirstPiece_map_id state.inventory q.pieceId piece2 (by rw [hpiece2, ← hpid])]
      exact hndinv
    have hfind2 : ∀ q2 ∈ rest, ∃ p2 ∈ state2.inventory,
        p2.id = q2.pieceId ∧ p2.placed = false ∧ p2.size = q2.size := by
      intro q2 hq2
      obtain ⟨p2, hp2inv, hp2id, hp2placed, hp2size⟩ := hfind q2 (by simp [hq2])
      have hne : p2.id ≠ q.pieceId := by
        rw [hp2id]
        intro hcc
        rw [List.map_cons, List.nodup_cons] at hndpl
        exact hndpl.1 (by rw [← hcc]; exact List.mem_map.mpr ⟨q2, hq2, rfl⟩)
      exact ⟨p2, mem_setFirstPiece_of_ne hp2inv hne, hp2id, hp2placed, hp2size⟩
    have hih := ih state2 hnd2
      (by rw [List.map_cons, List.nodup_cons] at hndpl; exact hndpl.2) hfind2
    have hcells2 : state2.board.cells =
        placeBlock state.board.cells q.x q.y q.size (q.pieceId : Int) := by
      show (state.board.place piece2 q.x q.y).cells = _
      unfold Board.place
      have h1 : piece2.size = q.size := by rw [hpiece2]; exact hpsize
      have h2 : piece2.id = q.pieceId := by rw [hpiece2]; exact hpid
      rw [h1, h2]
    have hfilled2 : state2.board.filled = state.board.filled + q.size * q.size := by
      show (state.board.place piece2 q.x q.y).filled = _
      unfold Board.place
      have h1 : piece2.size = q.size := by rw [hpiece2]; exact hpsize
      rw [h1]
    have hsize2 : state2.board.size = state.board.size := rfl
    rw [hres]
    refine ⟨?_, ?_, ?_, ?_⟩
    · show (applyPlacements state2 rest).1.board.cells = applyPl state.board.cells (q :: rest)
      rw [hih.1, hcells2]
      rfl
    · show (applyPlacements state2 rest).1.board.filled = _
      rw [hih.2.1, hfilled2]
      simp only [List.map_cons, List.sum_cons]
      omega
    · show (applyPlacements state2 rest).1.board.size = state.board.size
      rw [hih.2.2.1, hsize2]
    · show ((⟨q.pieceId, 0, 0, false, q.x, q.y, true⟩ : Step) ::
        (applyPlacements state2 rest).2).length = (q :: rest).length
      rw [List.length_cons, hih.2.2.2, List.length_cons]

/-! ## The initial pools -/

lemma poolOf_mem {state : GState} {s pid : Nat} (h : pid ∈ poolOf state s) :
    ∃ p ∈ state.inventory, p.id = pid ∧ p.placed = false ∧ p.size = s := by
  unfold poolOf at h
  by_cases hg : 1 ≤ s ∧ s ≤ 8
  · rw [if_pos hg] at h
    obtain ⟨p, hpf, hpid⟩ := List.mem_map.mp h
    obtain ⟨hpin, hpcond⟩ := List.mem_filter.mp hpf
    simp only [Bool.and_eq_true, Bool.not_eq_true', beq_iff_eq] at hpcond
    exact ⟨p, hpin, hpid, hpcond.1, hpcond.2⟩
  · rw [if_neg hg] at h
    simp at h

lemma poolOf_inv (state : GState) (hnd : (state.inventory.map Piece.id).Nodup)
    (hpos : ∀ p ∈ state.inventory, 1 ≤ p.id) : PoolsInv (poolOf state) := by
  refine ⟨?_, ?_, ?_, ?_⟩
  · intro s
    unfold poolOf
    by_cases hg : 1 ≤ s ∧ s ≤ 8
    · rw [if_pos hg]
      exact hnd.sublist ((List.filter_sublist _).map Piece.id)
    · rw [if_neg hg]
      exact List.nodup_nil
  · intro s1 s2 hne pid h1 h2
    obtain ⟨p1, hp1, hid1, _, hsz1⟩ := poolOf_mem h1
    obtain ⟨p2, hp2, hid2, _, hsz2⟩ := poolOf_mem h2
    have : p1 = p2 :=
      List.inj_on_of_nodup_map hnd hp1 hp2 (by rw [hid1, hid2])
    rw [this] at hsz1
    exact hne (by rw [← hsz1, ← hsz2])
  · intro s pid h
    obtain ⟨p, hp, hid, _, _⟩ := poolOf_mem h
    rw [← hid]
    exact hpos p hp
  · intro s h
    unfold poolOf at h
    by_cases hg : 1 ≤ s ∧ s ≤ 8
    · exact hg
    · rw [if_neg hg] at h
      exact absurd rfl h

lemma poolLens_countsOf (state : GState)
    (hsz : ∀ p ∈ state.inventory, p.placed = false → 1 ≤ p.size ∧ p.size ≤ 8) :
    ∀ s, 1 ≤ s → s ≤ 8 → poolLens (poolOf state) s = countsOf state s := by
  intro s h1 h8
  unfold poolLens poolOf countsOf
  rw [if_pos ⟨h1, h8⟩, List.length_map]

lemma countsTotal_poolOf (state : GState) :
    countsTotal (poolLens (poolOf state)) = poolTotalOf state := rfl

/-! ## C2: correctness of the solution counter -/

lemma mem_enumSizes {n : Nat} {recur : Grid → (Nat → Nat) → Nat → List (List P3)}
    {cells : Grid} {counts : Nat → Nat} {x y : Nat} :
    ∀ (l : List Nat) (P : List P3),
    P ∈ enumSizes n recur cells counts x y l ↔
    ∃ s ∈ l, (counts s ≠ 0 ∧ canPlaceAt n cells x y s = true) ∧
      ∃ P2 ∈ recur (placeBlock cells x y s (-(s : Int))) (decrAt counts s) y,
        P = (x, y, s) :: P2 := by
  intro l
  induction l with
  | nil =>
    intro P
    simp [enumSizes]
  | cons s rest ih =>
    intro P
    constructor
    · intro h
      simp only [enumSizes] at h
      rcases List.mem_append.mp h with h1 | h2
      · by_cases hc : counts s ≠ 0 ∧ canPlaceAt n cells x y s = true
        · rw [if_pos hc] at h1
          obtain ⟨P2, hP2, hPeq⟩ := List.mem_map.mp h1
          exact ⟨s, List.mem_cons_self s rest, hc, P2, hP2, hPeq.symm⟩
        · rw [if_neg hc] at h1
          simp at h1
      · obtain ⟨s2, hs2, hc2, P2, hP2, hPeq⟩ := (ih P).mp h2
        exact ⟨s2, List.mem_cons_of_mem s hs2, hc2, P2, hP2, hPeq⟩
    · rintro ⟨s2, hs2mem, hc2, P2, hP2, hPeq⟩
      simp only [enumSizes]
      rw [List.mem_append]
      rcases List.mem_cons.mp hs2mem with heq | hmem
      · subst heq
        left
        rw [if_pos hc2]
        exact List.mem_map.mpr ⟨P2, hP2, hPeq.symm⟩
      · right
        exact (ih P).mpr ⟨s2, hmem, hc2, P2, hP2, hPeq⟩

lemma completionsFrom_sound (n : Nat) : ∀ (fuel : Nat) (cells : Grid) (counts : Nat → Nat)
    (r : Nat) (P : List P3),
    (∀ yy, yy < r → ∀ xx, xx < n → cells yy xx ≠ 0) →
    P ∈ completionsFrom n fuel cells counts r →
    IsCompletion n cells counts P := by
  intro fuel
  induction fuel with
  | zero =>
    intro cells counts r P _ hmem
    simp [completionsFrom] at hmem
  | succ fuel ih =>
    intro cells counts r P hrows hmem
    rcases hf : findNextEmpty n cells r with _ | ⟨x, y⟩
    · rw [show completionsFrom n (fuel+1) cells counts r = [[]] from by
        simp only [completionsFrom, hf]] at hmem
      rw [List.mem_singleton] at hmem
      subst hmem
      rw [completion_nil_iff]
      intro xx hx yy hy
      by_cases hyr : yy < r
      · exact hrows yy hyr xx hx
      · exact findNextEmpty_eq_none.mp hf yy (by omega) hy xx hx
    · rw [show completionsFrom n (fuel+1) cells counts r =
          enumSizes n (fun c2 k2 y2 => completionsFrom n fuel c2 k2 y2) cells counts x y
            countOrder from by
        simp only [completionsFrom, hf]] at hmem
      obtain ⟨s, hsmem, ⟨hc0, hcp⟩, P2, hP2, hPeq⟩ := (mem_enumSizes countOrder P).mp hmem
      have hs18 : 1 ≤ s ∧ s ≤ 8 := by
        simp [countOrder] at hsmem
        omega
      have hfe0 : findNextEmpty n cells 0 = some (x, y) := by
        rw [← findNextEmpty_skip_rows hrows]
        exact hf
      have hv : -(s : Int) ≠ 0 := by
        simp only [ne_eq, neg_eq_zero, Int.natCast_eq_zero]
        omega
      have hrows2 : ∀ yy, yy < y → ∀ xx, xx < n →
          placeBlock cells x y s (-(s : Int)) yy xx ≠ 0 := by
        intro yy hy xx hx
        rw [placeBlock_out _ _ _ _ _ (by omega)]
        exact rows_filled_of_first hfe0 yy hy xx hx
      have htail := ih (placeBlock cells x y s (-(s : Int))) (decrAt counts s) y P2
        hrows2 hP2
      rw [hPeq]
      exact completion_cons hv hfe0 hcp hs18.1 hs18.2 hc0 htail

lemma completion_length_le {n : Nat} : ∀ {P : List P3} {g : Grid} {counts : Nat → Nat},
    IsCompletion n g counts P → P.length ≤ countsTotal counts := by
  intro P
  induction P with
  | nil =>
    intro g counts _
    simp
  | cons q P2 ih =>
    intro g counts hP
    obtain ⟨qx, qy, qs⟩ := q
    have hb := hP.2.1 (qx, qy, qs) (by simp)
    have h1 : 1 ≤ qs := hb.1
    have h8 : qs ≤ 8 := hb.2.1
    have hc1 : 1 ≤ counts qs := counts_head_pos hP
    have htail := completion_tail (v := (1 : Int)) one_ne_zero hP
    have hlen := ih htail
    have hdec := countsTotal_decr h1 h8 hc1
    simp only [List.length_cons]
    omega

lemma completionsFrom_complete (n : Nat) : ∀ (fuel : Nat) (cells : Grid) (counts : Nat → Nat)
    (r : Nat) (P : List P3),
    P.length < fuel →
    (∀ yy, yy < r → ∀ xx, xx < n → cells yy xx ≠ 0) →
    IsCompletion n cells counts P →
    P ∈ completionsFrom n fuel cells counts r := by
  intro fuel
  induction fuel with
  | zero =>
    intro cells counts r P hlen _ _
    omega
  | succ fuel ih =>
    intro cells counts r P hlen hrows hP
    rcases hf : findNextEmpty n cells r with _ | ⟨x, y⟩
    · have hfull : ∀ xx, xx < n → ∀ yy, yy < n → cells yy xx ≠ 0 := by
        intro xx hx yy hy
        by_cases hyr : yy < r
        · exact hrows yy hyr xx hx
        · exact findNextEmpty_eq_none.mp hf yy (by omega) hy xx hx
      have hPnil : P = [] := by
        cases P with
        | nil => rfl
        | cons q P2 =>
          exfalso
          obtain ⟨qx, qy, qs⟩ := q
          have hb := hP.2.1 (qx, qy, qs) (by simp)
          have h1 : 1 ≤ qs := hb.1
          have h3 : qx + qs ≤ n := hb.2.2.1
          have h4 : qy + qs ≤ n := hb.2.2.2
          have htl : cells qy qx = 0 :=
            (hP.2.2.2.1 qx (by omega) qy (by omega)).mpr
              ⟨(qx, qy, qs), by simp, inBlock_topLeft h1⟩
          exact hfull qx (by omega) qy (by omega) htl
      subst hPnil
      rw [show completionsFrom n (fuel+1) cells counts r = [[]] from by
        simp only [completionsFrom, hf]]
      simp
    · have hfe0 : findNextEmpty n cells 0 = some (x, y) := by
        rw [← findNextEmpty_skip_rows hrows]
        exact hf
      obtain ⟨s0, P2, hPeq⟩ := completion_head hP hfe0
      rw [hPeq] at hP hlen ⊢
      have hb := hP.2.1 (x, y, s0) (by simp)
      have h1 : 1 ≤ s0 := hb.1
      have h8 : s0 ≤ 8 := hb.2.1
      have hv : -(s0 : Int) ≠ 0 := by
        simp only [ne_eq, neg_eq_zero, Int.natCast_eq_zero]
        omega
      have hc0 : counts s0 ≠ 0 := by
        have := counts_head_pos hP
        omega
      have hcp : canPlaceAt n cells x y s0 = true := completion_canPlace hP
      have hrows2 : ∀ yy, yy < y → ∀ xx, xx < n →
          placeBlock cells x y s0 (-(s0 : Int)) yy xx ≠ 0 := by
        intro yy hy xx hx
        rw [placeBlock_out _ _ _ _ _ (by omega)]
        exact rows_filled_of_first hfe0 yy hy xx hx
      have htail := completion_tail (v := -(s0 : Int)) hv hP
      have hP2mem := ih (placeBlock cells x y s0 (-(s0 : Int))) (decrAt counts s0) y P2
        (by rw [List.length_cons] at hlen; omega) hrows2 htail
      rw [show completionsFrom n (fuel+1) cells counts r =
          enumSizes n (fun c2 k2 y2 => completionsFrom n fuel c2 k2 y2) cells counts x y
            countOrder from by
        simp only [completionsFrom, hf]]
      apply (mem_enumSizes countOrder ((x, y, s0) :: P2)).mpr
      exact ⟨s0, by simp [countOrder]; omega, ⟨hc0, hcp⟩, P2, hP2mem, rfl⟩

lemma enumSizes_nodup {n : Nat} {recur : Grid → (Nat → Nat) → Nat → List (List P3)}
    {cells : Grid} {counts : Nat → Nat} {x y : Nat}
    (hrec : ∀ c2 k2 y2, (recur c2 k2 y2).Nodup) :
    ∀ {l : List Nat}, l.Nodup → (enumSizes n recur cells counts x y l).Nodup := by
  intro l
  induction l with
  | nil =>
    intro _
    simp [enumSizes]
  | cons s rest ih =>
    intro hnd
    simp only [enumSizes]
    rw [List.nodup_append]
    refine ⟨?_, ih (List.nodup_cons.mp hnd).2, ?_⟩
    · by_cases hc : counts s ≠ 0 ∧ canPlaceAt n cells x y s = true
      · rw [if_pos hc]
        exact List.Nodup.map List.cons_injective (hrec _ _ _)
      · rw [if_neg hc]
        exact List.nodup_nil
    · intro a ha hb
      by_cases hc : counts s ≠ 0 ∧ canPlaceAt n cells x y s = true
      · rw [if_pos hc] at ha
        obtain ⟨P2, _, hPeq⟩ := List.mem_map.mp ha
        obtain ⟨s2, hs2, _, P4, _, hPeq2⟩ := (mem_enumSizes rest a).mp hb
        have hq : ((x, y, s) :: P2 : List P3) = (x, y, s2) :: P4 := by
          rw [← hPeq2]
          exact hPeq
        have hs : s = s2 := by
          injection hq with h1 _
          simpa using h1
        apply (List.nodup_cons.mp hnd).1
        rw [hs]
        exact hs2
      · rw [if_neg hc] at ha
        simp at ha

lemma completionsFrom_nodup (n : Nat) : ∀ (fuel : Nat) (cells : Grid) (counts : Nat → Nat)
    (r : Nat), (completionsFrom n fuel cells counts r).Nodup := by
  intro fuel
  induction fuel with
  | zero =>
    intro cells counts r
    simp [completionsFrom]
  | succ fuel ih =>
    intro cells counts r
    rcases hf : findNextEmpty n cells r with _ | ⟨x, y⟩
    · rw [show completionsFrom n (fuel+1) cells counts r = [[]] from by
        simp only [completionsFrom, hf]]
      simp
    · rw [show completionsFrom n (fuel+1) cells counts r =
          enumSizes n (fun c2 k2 y2 => completionsFrom n fuel c2 k2 y2) cells counts x y
            countOrder from by
        simp only [completionsFrom, hf]]
      exact enumSizes_nodup (fun c2 k2 y2 => ih c2 k2 y2) (by decide)

lemma ctrySizes_count (n limit fuel : Nat)
    (hrec : ∀ (c2 : Grid) (k2 : Nat → Nat) (y2 s2 : Nat), s2 < limit →
      cbacktrack n limit fuel c2 k2 y2 s2 =
        (decide (limit ≤ s2 + (completionsFrom n fuel c2 k2 y2).length),
         min limit (s2 + (completionsFrom n fuel c2 k2 y2).length))) :
    ∀ (l : List Nat) (cells : Grid) (counts : Nat → Nat) (x y sol : Nat), sol < limit →
      ctrySizes n (fun c2 k2 y2 s2 => cbacktrack n limit fuel c2 k2 y2 s2)
        cells counts x y l sol =
        (decide (limit ≤ sol +
          (enumSizes n (fun c2 k2 y2 => completionsFrom n fuel c2 k2 y2)
            cells counts x y l).length),
         min limit (sol +
          (enumSizes n (fun c2 k2 y2 => completionsFrom n fuel c2 k2 y2)
            cells counts x y l).length)) := by
  intro l
  induction l with
  | nil =>
    intro cells counts x y sol hsol
    simp only [ctrySizes, enumSizes, List.length_nil, Nat.add_zero]
    rw [Prod.mk.injEq]
    exact ⟨(decide_eq_false (by omega)).symm, (Nat.min_eq_right (by omega)).symm⟩
  | cons s rest ih =>
    intro cells counts x y sol hsol
    have he : enumSizes n (fun c2 k2 y2 => completionsFrom n fuel c2 k2 y2)
        cells counts x y (s :: rest) =
        (if counts s ≠ 0 ∧ canPlaceAt n cells x y s = true then
          ((completionsFrom n fuel (placeBlock cells x y s (-(s : Int)))
            (decrAt counts s) y).map (fun P0 => (x, y, s) :: P0))
         else []) ++
        enumSizes n (fun c2 k2 y2 => completionsFrom n fuel c2 k2 y2) cells counts x y
          rest := by
      simp only [enumSizes]
    by_cases hc0 : counts s = 0
    · rw [he, if_neg (fun hcon => hcon.1 hc0), List.nil_append]
      simp only [ctrySizes]
      rw [if_pos hc0]
      exact ih cells counts x y sol hsol
    · by_cases hcp : canPlaceAt n cells x y s = true
      · rw [he, if_pos ⟨hc0, hcp⟩]
        simp only [ctrySizes]
        rw [if_neg hc0, if_neg (by rw [hcp]; simp)]
        set C1 := completionsFrom n fuel (placeBlock cells x y s (-(s : Int)))
          (decrAt counts s) y with hC1
        have hr : cbacktrack n limit fuel (placeBlock cells x y s (-(s : Int)))
            (decrAt counts s) y sol =
            (decide (limit ≤ sol + C1.length), min limit (sol + C1.length)) := by
          rw [hC1]
          exact hrec _ _ _ sol hsol
        by_cases hlim : limit ≤ sol + C1.length
        · rw [if_pos (by rw [hr]; exact decide_eq_true hlim),
            show (cbacktrack n limit fuel (placeBlock cells x y s (-(s : Int)))
              (decrAt counts s) y sol).2 = limit from by
              rw [hr]; exact Nat.min_eq_left hlim]
          simp only [List.length_append, List.length_map]
          rw [Prod.mk.injEq]
          exact ⟨(decide_eq_true (by omega)).symm, (Nat.min_eq_left (by omega)).symm⟩
        · rw [if_neg (by rw [hr]; exact fun hcon => hlim (of_decide_eq_true hcon)),
            show (cbacktrack n limit fuel (placeBlock cells x y s (-(s : Int)))
              (decrAt counts s) y sol).2 = sol + C1.length from by
              rw [hr]; exact Nat.min_eq_right (by omega),
            ih cells counts x y (sol + C1.length) (by omega)]
          simp only [List.length_append, List.length_map]
          rw [Nat.add_assoc]
      · have hcpf : canPlaceAt n cells x y s = false := by
          simpa using hcp
        rw [he, if_neg (fun hcon => hcp hcon.2), List.nil_append]
        simp only [ctrySizes]
        rw [if_neg hc0, if_pos (by rw [hcpf]; rfl)]
        exact ih cells counts x y sol hsol

lemma cbacktrack_count (n limit : Nat) : ∀ (fuel : Nat) (cells : Grid) (counts : Nat → Nat)
    (r sol : Nat), sol < limit →
    cbacktrack n limit fuel cells counts r sol =
      (decide (limit ≤ sol + (completionsFrom n fuel cells counts r).length),
       min limit (sol + (completionsFrom n fuel cells counts r).length)) := by
  intro fuel
  induction fuel with
  | zero =>
    intro cells counts r sol hsol
    simp only [cbacktrack, completionsFrom, List.length_nil, Nat.add_zero]
    rw [Prod.mk.injEq]
    exact ⟨(decide_eq_false (by omega)).symm, (Nat.min_eq_right (by omega)).symm⟩
  | succ fuel ih =>
    intro cells counts r sol hsol
    rcases hf : findNextEmpty n cells r with _ | ⟨x, y⟩
    · rw [show completionsFrom n (fuel+1) cells counts r = [[]] from by
        simp only [completionsFrom, hf]]
      rw [show cbacktrack n limit (fuel+1) cells counts r sol =
          (decide (limit ≤ sol + 1), sol + 1) from by
        simp only [cbacktrack, hf]
        rw [if_neg (by omega)]]
      rw [List.length_singleton, Prod.mk.injEq]
      exact ⟨rfl, (Nat.min_eq_right (by omega)).symm⟩
    · rw [show cbacktrack n limit (fuel+1) cells counts r sol =
          ctrySizes n (fun c2 k2 y2 s2 => cbacktrack n limit fuel c2 k2 y2 s2)
            cells counts x y countOrder sol from by
        simp only [cbacktrack, hf]
        rw [if_neg (by omega)]]
      rw [show completionsFrom n (fuel+1) cells counts r =
          enumSizes n (fun c2 k2 y2 => completionsFrom n fuel c2 k2 y2) cells counts x y
            countOrder from by
        simp only [completionsFrom, hf]]
      exact ctrySizes_count n limit fuel (fun c2 k2 y2 s2 h => ih c2 k2 y2 s2 h)
        countOrder cells counts x y sol hsol

/-- C2: `countSolutionsAsync` with limit `L` never returns a count above `L`;
the canonical enumeration `completionsFrom` lists, without duplicates, exactly
the exact completions of the board by the remaining per-size tile counts; and
whenever the number of those completions is at most `L`, the returned count is
exactly that number (in particular `0` when no completion exists). -/
theorem countSolutions_correct (state : GState) (L : Nat) :
    (countSolutionsAsync state L).count ≤ L ∧
    (completionsFrom state.board.size (countsTotal (countsOf state) + 1)
      state.board.cells (countsOf state) 0).Nodup ∧
    (∀ P, P ∈ completionsFrom state.board.size (countsTotal (countsOf state) + 1)
        state.board.cells (countsOf state) 0 ↔
      IsCompletion state.board.size state.board.cells (countsOf state) P) ∧
    ((completionsFrom state.board.size (countsTotal (countsOf state) + 1)
        state.board.cells (countsOf state) 0).length ≤ L →
      (countSolutionsAsync state L).count =
        (completionsFrom state.board.size (countsTotal (countsOf state) + 1)
          state.board.cells (countsOf state) 0).length) := by
  set n := state.board.size with hn
  set F := countsTotal (countsOf state) + 1 with hF
  set comps := completionsFrom n F state.board.cells (countsOf state) 0 with hcomps
  have hmemiff : ∀ P, P ∈ comps ↔ IsCompletion n state.board.cells (countsOf state) P := by
    intro P
    constructor
    · intro h
      rw [hcomps] at h
      exact completionsFrom_sound n F state.board.cells (countsOf state) 0 P
        (fun yy hy => absurd hy (Nat.not_lt_zero yy)) h
    · intro h
      rw [hcomps]
      apply completionsFrom_complete n F state.board.cells (countsOf state) 0 P
      · have := completion_length_le h
        omega
      · exact fun yy hy => absurd hy (Nat.not_lt_zero yy)
      · exact h
  by_cases hL : L = 0
  · subst hL
    have hres : (countSolutionsAsync state 0).count = 0 := by
      show (cbacktrack n 0 F state.board.cells (countsOf state) 0 0).2 = 0
      rw [show cbacktrack n 0 F state.board.cells (countsOf state) 0 0 = (true, 0) from by
        rw [hF]
        simp only [cbacktrack]
        rw [if_pos (Nat.le_refl 0)]]
    refine ⟨Nat.le_of_eq hres, ?_, hmemiff, ?_⟩
    · rw [hcomps]
      exact completionsFrom_nodup n F _ _ _
    · intro hlen
      rw [hres]
      omega
  · have hr := cbacktrack_count n L F state.board.cells (countsOf state) 0 0 (by omega)
    have hres : (countSolutionsAsync state L).count = min L comps.length := by
      show (cbacktrack n L F state.board.cells (countsOf state) 0 0).2 = min L comps.length
      rw [hr]
      show min L (0 + comps.length) = min L comps.length
      rw [Nat.zero_add]
    refine ⟨?_, ?_, hmemiff, ?_⟩
    · rw [hres]
      exact Nat.min_le_left _ _
    · rw [hcomps]
      exact completionsFrom_nodup n F _ _ _
    · intro hlen
      rw [hres]
      exact Nat.min_eq_right hlen

/-! ## C1: correctness of the exact-completion solver -/

/-- C1: for a well-formed board and inventory, when the search runs to
completion without being cancelled, `solveRemainingAsync` returns success if
and only if the remaining empty cells can be exactly tiled by not-yet-placed
tiles from the inventory; and on success every cell of the caller's board is
non-zero and the filled count equals size². -/
theorem solveRemaining_correct (state : GState) (orders : Nat → List Nat)
    (hnd : (state.inventory.map Piece.id).Nodup)
    (hpos : ∀ p ∈ state.inventory, 1 ≤ p.id)
    (hsz : ∀ p ∈ state.inventory, p.placed = false → 1 ≤ p.size ∧ p.size ≤ 8)
    (hfil : state.board.filled = countFilled state.board.size state.board.cells)
    (hord : ∀ d s, s ∈ orders d ↔ s ∈ baseSizesOf state) :
    ((solveRemainingAsync state orders (fun _ => false)).1.ok = true ↔
      ∃ P, IsCompletion state.board.size state.board.cells (countsOf state) P) ∧
    ((solveRemainingAsync state orders (fun _ => false)).1.ok = true →
      (∀ xx, xx < state.board.size → ∀ yy, yy < state.board.size →
        (solveRemainingAsync state orders (fun _ => false)).2.board.cells yy xx ≠ 0) ∧
      (solveRemainingAsync state orders (fun _ => false)).2.board.filled =
        state.board.size * state.board.size) := by
  set n := state.board.size with hn
  set st0 : SState :=
    { cells := state.board.cells, pools := poolOf state, placements := [], t := 0 } with hst0
  set r := backtrack n orders (fun _ => false) (poolTotalOf state + 1) 0 0 st0 with hrdef
  have hsolve : solveRemainingAsync state orders (fun _ => false) =
      (if !r.1 then ({ ok := false, reason := none, count := none }, state)
       else
         ({ ok := true, reason := none,
            count := some (applyPlacements state r.2.placements).2.length },
          if (applyPlacements state r.2.placements).2.isEmpty then
            (applyPlacements state r.2.placements).1
          else (applyPlacements state r.2.placements).1.pushStep
            (applyPlacements state r.2.placements).2)) := by
    simp only [solveRemainingAsync, ← hn, ← hst0, ← hrdef]
    rw [if_neg (by simp)]
  have hinv0 : PoolsInv st0.pools := poolOf_inv state hnd hpos
  have hccongr : ∀ s, 1 ≤ s → s ≤ 8 → poolLens st0.pools s = countsOf state s :=
    poolLens_countsOf state hsz
  have hpred0 : ∀ s, st0.pools s ≠ [] → ∀ d, s ∈ orders d := by
    intro s hne d
    rw [hord d s]
    unfold baseSizesOf
    rw [List.mem_filter]
    have hg := hinv0.sized s hne
    constructor
    · rw [List.mem_map]
      exact ⟨s - 1, by rw [List.mem_range]; omega, by omega⟩
    · have hne2 : poolOf state s ≠ [] := hne
      simp only [Bool.not_eq_true']
      rw [← Bool.not_eq_true, List.isEmpty_iff]
      exact hne2
  have hrows0 : ∀ yy, yy < 0 → ∀ xx, xx < n → st0.cells yy xx ≠ 0 := by
    intro yy hy
    omega
  rcases hb : r.1 with _ | _
  · -- search exhausted without a solution
    rw [hsolve, if_pos (by simp [hb])]
    refine ⟨?_, ?_⟩
    · simp only [Bool.false_eq_true, false_iff]
      rintro ⟨P, hP⟩
      have hP2 : IsCompletion n st0.cells (poolLens st0.pools) P :=
        completion_counts_congr (fun s h1 h8 => (hccongr s h1 h8).symm) hP
      have := backtrack_complete n orders (fun _ => false) (fun _ => rfl)
        (poolTotalOf state + 1) 0 0 st0 P
        (by rw [countsTotal_poolOf]) hinv0 hpred0 hrows0 hP2
      rw [← hrdef] at this
      rw [this] at hb
      simp at hb
    · intro hcc
      simp at hcc
  · -- the search found a completion
    rw [hsolve, if_neg (by simp [hb])]
    have hsound := backtrack_sound n orders (fun _ => false)
      (poolTotalOf state + 1) 0 0 st0 (by rw [← hrdef]; exact hb) hinv0 hrows0
    rw [← hrdef] at hsound
    obtain ⟨newPl, hpl, hcells, hfull, hcompl, hndpl, hmem⟩ := hsound
    have hpl2 : r.2.placements = newPl := by
      rw [hpl]
      rfl
    have hfindw : ∀ q ∈ newPl, ∃ p ∈ state.inventory,
        p.id = q.pieceId ∧ p.placed = false ∧ p.size = q.size := by
      intro q hq
      exact poolOf_mem (hmem q hq).1
    have hap := applyPlacements_spec newPl state hnd hndpl hfindw
    rw [hpl2]
    have hboard : ∀ st2 : GState,
        (if (applyPlacements state newPl).2.isEmpty then (applyPlacements state newPl).1
         else (applyPlacements state newPl).1.pushStep
          (applyPlacements state newPl).2).board = (applyPlacements state newPl).1.board := by
      intro _
      by_cases hie : (applyPlacements state newPl).2.isEmpty
      · rw [if_pos hie]
      · rw [if_neg hie]
        rfl
    refine ⟨?_, ?_⟩
    · simp only [true_iff]
      exact ⟨newPl.map toP3, completion_counts_congr hccongr hcompl⟩
    · intro _
      constructor
      · intro xx hx yy hy
        show (if (applyPlacements state newPl).2.isEmpty then (applyPlacements state newPl).1
          else (applyPlacements state newPl).1.pushStep
            (applyPlacements state newPl).2).board.cells yy xx ≠ 0
        rw [hboard state, hap.1]
        have hfull2 := hfull xx hx yy hy
        rw [hcells] at hfull2
        exact hfull2
      · show (if (applyPlacements state newPl).2.isEmpty then (applyPlacements state newPl).1
          else (applyPlacements state newPl).1.pushStep
            (applyPlacements state newPl).2).board.filled = n * n
        rw [hboard state, hap.2.1]
        have hce := completion_countEmpty hcompl
        have hsum : ((newPl.map toP3).map (fun q => q.2.2 * q.2.2)).sum =
            (newPl.map (fun q => q.size * q.size)).sum := by
          rw [List.map_map]
          rfl
        rw [hsum] at hce
        have hcf := countFilled_add_countEmpty n st0.cells
        have hfil2 : state.board.filled = countFilled n st0.cells := hfil
        omega

/-- C1 witness: an empty 2×2 board with a single 2×2 tile available. -/
theorem solveRemaining_correct_witness :
    ((solveRemainingAsync ⟨⟨2, fun _ _ => 0, 0⟩, [⟨1, 2, 0, 0, false, false⟩], [], []⟩
        (fun _ => [2]) (fun _ => false)).1.ok = true ↔
      ∃ P, IsCompletion 2 (fun _ _ => 0)
        (countsOf ⟨⟨2, fun _ _ => 0, 0⟩, [⟨1, 2, 0, 0, false, false⟩], [], []⟩) P) ∧
    ((solveRemainingAsync ⟨⟨2, fun _ _ => 0, 0⟩, [⟨1, 2, 0, 0, false, false⟩], [], []⟩
        (fun _ => [2]) (fun _ => false)).1.ok = true →
      (∀ xx, xx < 2 → ∀ yy, yy < 2 →
        (solveRemainingAsync ⟨⟨2, fun _ _ => 0, 0⟩, [⟨1, 2, 0, 0, false, false⟩], [], []⟩
          (fun _ => [2]) (fun _ => false)).2.board.cells yy xx ≠ 0) ∧
      (solveRemainingAsync ⟨⟨2, fun _ _ => 0, 0⟩, [⟨1, 2, 0, 0, false, false⟩], [], []⟩
        (fun _ => [2]) (fun _ => false)).2.board.filled = 2 * 2) :=
  solveRemaining_correct ⟨⟨2, fun _ _ => 0, 0⟩, [⟨1, 2, 0, 0, false, false⟩], [], []⟩
    (fun _ => [2]) (by decide) (by decide) (by decide) (by decide)
    (by
      intro d s
      rw [show baseSizesOf ⟨⟨2, fun _ _ => 0, 0⟩, [⟨1, 2, 0, 0, false, false⟩], [], []⟩ =
        [2] from rfl])

end SquareQuber
